import Mathlib

/-!
Verification of the QUBO encode/decode core of the quantum-cvrp repository
(`src/quantumrouting`).  The Python modules `wrappers/qubo.py` and
`solvers/qbsolv.py` are shallowly embedded below: every coefficient map is a
`QMap` (key list plus coefficient function, mirroring a Python
`defaultdict(int)` whose keys are created on first access and whose values
accumulate additively), machine floats are modelled by `ℚ`, and the Python
`int` step indices by `ℤ`.
-/

namespace QuantumCVRP

/-- Binary decision variable `(step, destination)`, both Python ints. -/
abbrev Var : Type := ℤ × ℤ

/-- Key of the coefficient dictionary: an ordered pair of variables. -/
abbrev QKey : Type := Var × Var

/-- Embedding of a Python `defaultdict(int)` keyed by `QKey`: the list of keys
in insertion order together with the stored coefficient function. -/
structure QMap where
  keys : List QKey
  val : QKey → ℚ

/-- Dictionary lookup with default `0` (`d.get(k, 0)`). -/
def QMap.getD (m : QMap) (k : QKey) : ℚ :=
  if k ∈ m.keys then m.val k else 0

/-- The empty dictionary. -/
def QMap.empty : QMap := ⟨[], fun _ => 0⟩

/-- One `+=` update of a `defaultdict(int)`: the key is created (at the end of
the key list) if absent, and the stored value becomes the old value plus `v`. -/
def QMap.add1 (m : QMap) (k : QKey) (v : ℚ) : QMap :=
  ⟨if k ∈ m.keys then m.keys else m.keys ++ [k],
   fun k' => if k' = k then m.getD k + v else m.val k'⟩

/-- A sequence of `+=` updates, one per listed `(key, value)` contribution. -/
def QMap.addAll (m : QMap) (l : List (QKey × ℚ)) : QMap :=
  l.foldl (fun m kv => m.add1 kv.1 kv.2) m

/-- Total contribution of a list of `(key, value)` updates to one key. -/
def contribSum (l : List (QKey × ℚ)) (k : QKey) : ℚ :=
  (l.map (fun kv => if kv.1 = k then kv.2 else 0)).sum

/-- Python `range(a, b)` over ints. -/
def intRange (a b : ℤ) : List ℤ :=
  (List.range (b - a).toNat).map (fun i : ℕ => a + (i : ℤ))

/-- Python `itertools.combinations(l, 2)`: pairs of entries in list order. -/
def combos2 {α : Type} : List α → List (α × α)
  | [] => []
  | x :: xs => (xs.map (fun y => (x, y))) ++ combos2 xs

/-- Embedding of `types.CVRPProblem`.  `location_idx` is the array of location
indices, `demands` the size array (modelled as a total function on int
indices), and `costs` the distance matrix that `solvers/qbsolv.py` reads from
the problem at decode time.  The `coords` field is not needed by the verified
code paths: the distance matrix consumed by the encoder is passed explicitly
(see `vrp_objective_function`). -/
structure CVRPProblem where
  problem_identifier : String
  location_idx : List ℤ
  vehicle_capacity : ℤ
  num_vehicles : ℕ
  demands : ℤ → ℚ
  max_deliveries : ℕ
  costs : ℤ → ℤ → ℚ
  depot_idx : ℤ

/-- Contributions of one vehicle block of `vrp_objective_function`
(`wrappers/qubo.py` lines 29-65) given the block's `start` step: all adjacent
step transitions, then the depot-ingress and depot-egress diagonal terms. -/
def vrpVehicleContribs (distances : ℤ → ℤ → ℚ) (p : CVRPProblem)
    (cost_const : ℚ) (start : ℤ) : List (QKey × ℚ) :=
  let L : ℤ := p.location_idx.length
  let min_final := start - 1
  let max_final := start + L - 2
  ((intRange (min_final + 1) max_final).flatMap (fun step =>
    p.location_idx.flatMap (fun node1 =>
      p.location_idx.map (fun node2 =>
        (((step, node1), (step + 1, node2)), distances node1 node2 * cost_const)))))
  ++ (p.location_idx.flatMap (fun destination =>
      [(((start, destination), (start, destination)),
          distances p.depot_idx destination * cost_const),
       (((max_final, destination), (max_final, destination)),
          cost_const * distances destination p.depot_idx)]))

/-- Contribution list of `vrp_objective_function`: one block per vehicle.  The
Python loop threads `start`, beginning at `0` and advancing by
`max_final + 1 - start = len(location_idx) - 1` per vehicle, so vehicle `v`
starts at `v * (len(location_idx) - 1)`. -/
def vrpContribs (distances : ℤ → ℤ → ℚ) (p : CVRPProblem)
    (cost_const : ℚ) : List (QKey × ℚ) :=
  (List.range p.num_vehicles).flatMap (fun vehicle : ℕ =>
    vrpVehicleContribs distances p cost_const
      ((vehicle : ℤ) * ((p.location_idx.length : ℤ) - 1)))

/-- Embedding of `vrp_objective_function` (`wrappers/qubo.py` lines 21-67).
The Python function computes `distances` itself via
`compute_distances(coords=problem.coords)`; that module is not part of the
sources, so the distance matrix is taken here as an explicit argument. -/
def vrp_objective_function (distances : ℤ → ℤ → ℚ) (p : CVRPProblem)
    (cost_const : ℚ) : QMap :=
  QMap.addAll QMap.empty (vrpContribs distances p cost_const)

/-- Capacity contributions of one vehicle block of `cvrp_objective_function`
(`wrappers/qubo.py` lines 79-87). -/
def cvrpVehicleContribs (p : CVRPProblem) (cost_const : ℚ) (start : ℤ) :
    List (QKey × ℚ) :=
  let L : ℤ := p.location_idx.length
  let max_final := start + L - 2
  let capacity := p.vehicle_capacity
  (combos2 (p.location_idx.drop 1)).flatMap (fun dd =>
    (combos2 (intRange start (max_final + 1))).flatMap (fun ss =>
      let cost := p.demands dd.1 * p.demands dd.2 / ((capacity : ℚ)) ^ 2
      [(((ss.1, dd.1), (ss.2, dd.2)), cost_const * cost),
       (((ss.1, dd.2), (ss.2, dd.1)), cost_const * cost)]))

/-- Contribution list of the capacity-penalty part of
`cvrp_objective_function`, one block per vehicle (same `start` recurrence as
`vrpContribs`). -/
def cvrpCapContribs (p : CVRPProblem) (cost_const : ℚ) : List (QKey × ℚ) :=
  (List.range p.num_vehicles).flatMap (fun vehicle : ℕ =>
    cvrpVehicleContribs p cost_const
      ((vehicle : ℤ) * ((p.location_idx.length : ℤ) - 1)))

/-- Embedding of `cvrp_objective_function` (`wrappers/qubo.py` lines 70-91):
the vrp objective dictionary, further accumulated with capacity terms. -/
def cvrp_objective_function (distances : ℤ → ℤ → ℚ) (p : CVRPProblem)
    (cost_const : ℚ) : QMap :=
  QMap.addAll (vrp_objective_function distances p cost_const)
    (cvrpCapContribs p cost_const)

/-- Contribution list of `constraints` (`wrappers/qubo.py` lines 94-115):
the one-hot family per non-depot destination, then the one-hot family per
step. -/
def constraintsContribs (p : CVRPProblem) (constraint_const : ℚ) :
    List (QKey × ℚ) :=
  let steps := p.num_vehicles * p.max_deliveries
  ((p.location_idx.drop 1).flatMap (fun dest =>
    let vars := (List.range steps).map (fun step : ℕ => ((step : ℤ), dest))
    (vars.map (fun var => ((var, var), -(2 * constraint_const))))
    ++ (vars.flatMap (fun v1 =>
          vars.map (fun v2 => ((v1, v2), constraint_const))))))
  ++ ((List.range steps).flatMap (fun step : ℕ =>
    let vars := p.location_idx.map (fun dest => (((step : ℤ)), dest))
    (vars.map (fun var => ((var, var), -(2 * constraint_const))))
    ++ (vars.flatMap (fun v1 =>
          vars.map (fun v2 => ((v1, v2), constraint_const))))))

/-- Embedding of `constraints` (`wrappers/qubo.py` lines 94-115). -/
def constraints (p : CVRPProblem) (constraint_const : ℚ) : QMap :=
  QMap.addAll QMap.empty (constraintsContribs p constraint_const)

/-- Embedding of `FullQuboParams` (`solvers/fullqubo.py`). -/
structure FullQuboParams where
  constraint_const : ℚ
  cost_const : ℚ

/-- The QUBO combiner shared verbatim by `_wrap_vrp_qubo_problem` and
`_wrap_cvrp_qubo_problem` (`wrappers/qubo.py` lines 139-142 and 169-172):
`{k: objective.get(k, 0) + constraints.get(k, 0) for k in set(objective) | set(constraints)}`. -/
def combineQubo (objective_repr constraints_repr : QMap) : QMap :=
  ⟨(objective_repr.keys ++ constraints_repr.keys).dedup,
   fun k => objective_repr.getD k + constraints_repr.getD k⟩

/-- Embedding of `_wrap_vrp_qubo_problem` (`wrappers/qubo.py` lines 136-142). -/
def wrap_vrp_qubo_problem (distances : ℤ → ℤ → ℚ) (params : FullQuboParams)
    (p : CVRPProblem) : QMap :=
  combineQubo (vrp_objective_function distances p params.cost_const)
    (constraints p params.constraint_const)

/-- Embedding of `_wrap_cvrp_qubo_problem` (`wrappers/qubo.py` lines 166-172). -/
def wrap_cvrp_qubo_problem (distances : ℤ → ℤ → ℚ) (params : FullQuboParams)
    (p : CVRPProblem) : QMap :=
  combineQubo (cvrp_objective_function distances p params.cost_const)
    (constraints p params.constraint_const)

/-- Embedding of `types.CVRPSolution`. -/
structure CVRPSolution where
  problem_identifier : String
  routes : List (List ℤ)
  cost : ℚ
  total_demands : List ℚ

/-- Loop state of the route-reconstruction loop of `_unwrap_qbsolv_solution`
(`solvers/qbsolv.py` lines 38-60).  `done` records that the `break` on line 60
has fired. -/
structure DecodeState where
  all_vehicles_results : List (List ℤ)
  vehicle_result : List ℤ
  step : ℕ
  vehicle : ℕ
  done : Bool

/-- One iteration of the decoding loop (`solvers/qbsolv.py` lines 45-60) on a
sample entry `((s, dest), bit)`. -/
def decodeStep (p : CVRPProblem) (st : DecodeState) (entry : Var × Bool) :
    DecodeState :=
  if st.done then st
  else if entry.2 = true then
    let vehicle_result :=
      if entry.1.2 ≠ 0 then st.vehicle_result ++ [entry.1.2]
      else st.vehicle_result
    let step := st.step + 1
    if p.max_deliveries = step then
      let closed := p.depot_idx :: vehicle_result ++ [p.depot_idx]
      let vehicle := st.vehicle + 1
      { all_vehicles_results := st.all_vehicles_results ++ [closed],
        vehicle_result := [], step := 0, vehicle := vehicle,
        done := p.num_vehicles ≤ vehicle }
    else { st with vehicle_result := vehicle_result, step := step }
  else st

/-- The full route-reconstruction fold over the sample's `(variable, bit)`
entries, taken in the dictionary's iteration order. -/
def decodeRoutes (p : CVRPProblem) (sample : List (Var × Bool)) : DecodeState :=
  sample.foldl (decodeStep p) ⟨[], [], 0, 0, false⟩

/-- Cost / per-vehicle-demand accumulation for one route
(`solvers/qbsolv.py` lines 65-75).  The accumulator is the running `cost`
paired with the `total_demands_size` list; the inner fold threads
`(cost, demands_size, prev)`. -/
def routeAccum (p : CVRPProblem) (acc : ℚ × List ℚ) (vehicle_route : List ℤ) :
    ℚ × List ℚ :=
  match vehicle_route with
  | [] => acc
  | prev :: rest =>
    let inner := rest.foldl
      (fun (s : ℚ × ℚ × ℤ) dest =>
        (s.1 + p.costs s.2.2 dest, s.2.1 + p.demands dest, dest))
      (acc.1, 0, prev)
    (inner.1 + p.costs inner.2.2 p.depot_idx, acc.2 ++ [inner.2.1])

/-- Embedding of `_unwrap_qbsolv_solution` (`solvers/qbsolv.py` lines 34-82),
applied to the first sample returned by the external annealer. -/
def unwrap_qbsolv_solution (p : CVRPProblem) (sample : List (Var × Bool)) :
    CVRPSolution :=
  let final := decodeRoutes p sample
  let cd := final.all_vehicles_results.foldl (routeAccum p) (0, [])
  { problem_identifier := p.problem_identifier,
    routes := final.all_vehicles_results,
    cost := cd.1,
    total_demands := cd.2 }

/-- Shape invariant of the decoding loop: every finished route is
`depot :: mid ++ [depot]` with all interior entries nonzero, and the open
buffer holds only nonzero entries. -/
def GoodState (p : CVRPProblem) (st : DecodeState) : Prop :=
  (∀ r ∈ st.all_vehicles_results,
      ∃ mid, r = p.depot_idx :: mid ++ [p.depot_idx] ∧ ∀ x ∈ mid, x ≠ 0)
  ∧ (∀ x ∈ st.vehicle_result, x ≠ 0)

/-- The canonical location index list `{0, …, L-1}` of the data model
(`np.array(range(L))` in `types.py`). -/
def natCastRange (L : ℕ) : List ℤ :=
  (List.range L).map (fun i : ℕ => (i : ℤ))

/-- A destination index of a problem with `L` locations. -/
def isDest (L : ℕ) (d : ℤ) : Prop := 0 ≤ d ∧ d < (L : ℤ)

instance (L : ℕ) (d : ℤ) : Decidable (isDest L d) := by
  unfold isDest; infer_instance

/-- Spec formula (§4.2 / claim C6) for the routing-cost coefficients
contributed by one vehicle block whose first step is `lo` and last step `hi`:
`distances[d1][d2] * cost_const` on `((step,d1),(step+1,d2))` for adjacent
steps inside the block, `distances[depot][d] * cost_const` on the diagonal of
the first step, `distances[d][depot] * cost_const` on the diagonal of the
last step, and nothing else. -/
def vrpBlockSpec (distances : ℤ → ℤ → ℚ) (depot : ℤ) (cc : ℚ) (L : ℕ)
    (lo hi : ℤ) (k : QKey) : ℚ :=
  (if lo ≤ k.1.1 ∧ k.1.1 < hi ∧ k.2.1 = k.1.1 + 1 ∧ isDest L k.1.2 ∧ isDest L k.2.2
    then distances k.1.2 k.2.2 * cc else 0)
  + (if k.2 = k.1 ∧ k.1.1 = lo ∧ isDest L k.1.2
    then distances depot k.1.2 * cc else 0)
  + (if k.2 = k.1 ∧ k.1.1 = hi ∧ isDest L k.1.2
    then distances k.1.2 depot * cc else 0)

/-- Spec formula for the whole vrp objective with per-vehicle blocks of size
`max_deliveries` (the block layout stated by the spec's data model, claim C6
as written): vehicle `v` owns steps `v*md … v*md + md - 1`. -/
def vrpObjectiveSpecMd (distances : ℤ → ℤ → ℚ) (p : CVRPProblem) (cc : ℚ)
    (L : ℕ) (k : QKey) : ℚ :=
  ((List.range p.num_vehicles).map (fun v : ℕ =>
    vrpBlockSpec distances p.depot_idx cc L
      ((v : ℤ) * (p.max_deliveries : ℤ))
      ((v : ℤ) * (p.max_deliveries : ℤ) + (p.max_deliveries : ℤ) - 1) k)).sum

/-- Spec formula for the whole vrp objective with per-vehicle blocks of size
`L - 1` (the block layout the code actually uses): vehicle `v` owns steps
`v*(L-1) … v*(L-1) + L - 2`. -/
def vrpObjectiveSpecLen (distances : ℤ → ℤ → ℚ) (p : CVRPProblem) (cc : ℚ)
    (L : ℕ) (k : QKey) : ℚ :=
  ((List.range p.num_vehicles).map (fun v : ℕ =>
    vrpBlockSpec distances p.depot_idx cc L
      ((v : ℤ) * ((L : ℤ) - 1))
      ((v : ℤ) * ((L : ℤ) - 1) + (L : ℤ) - 2) k)).sum

/-- Spec formula (§4.3 / claim C7) for the one-hot family of a single
non-depot destination `d`: every variable `(s, d)` with `0 ≤ s < steps` gets
`-2*A` on its diagonal, and every ordered pair of such variables (equal pairs
included) gets `+A`. -/
def destFamilyTerm (steps : ℕ) (d : ℤ) (A : ℚ) (k : QKey) : ℚ :=
  (if k.2 = k.1 ∧ k.1.2 = d ∧ 0 ≤ k.1.1 ∧ k.1.1 < (steps : ℤ)
    then -(2 * A) else 0)
  + (if k.1.2 = d ∧ k.2.2 = d ∧ 0 ≤ k.1.1 ∧ k.1.1 < (steps : ℤ)
        ∧ 0 ≤ k.2.1 ∧ k.2.1 < (steps : ℤ)
    then A else 0)

/-- Spec formula (§4.3 / claim C7) for the one-hot family of a single step
`s`: every variable `(s, d)` with `d` a destination (depot included) gets
`-2*A` on its diagonal, and every ordered pair of such variables gets `+A`. -/
def stepFamilyTerm (L : ℕ) (s : ℤ) (A : ℚ) (k : QKey) : ℚ :=
  (if k.2 = k.1 ∧ k.1.1 = s ∧ isDest L k.1.2 then -(2 * A) else 0)
  + (if k.1.1 = s ∧ k.2.1 = s ∧ isDest L k.1.2 ∧ isDest L k.2.2 then A else 0)

/-- Spec formula (claim C7): sum of the two one-hot penalty families, the
first ranging over every non-depot destination, the second over every step. -/
def constraintsSpec (p : CVRPProblem) (A : ℚ) (L : ℕ) (k : QKey) : ℚ :=
  (((natCastRange L).filter (fun d => d ≠ p.depot_idx)).map
      (fun d => destFamilyTerm (p.num_vehicles * p.max_deliveries) d A k)).sum
  + ((List.range (p.num_vehicles * p.max_deliveries)).map
      (fun s : ℕ => stepFamilyTerm L ((s : ℤ)) A k)).sum

/-- Spec formula (§4.2 / claim C3) for the capacity penalty of one vehicle
block with first step `lo` and last step `hi`: for every unordered pair of
distinct non-depot destinations and every unordered pair of distinct steps of
the block, `cost_const * demand[d1] * demand[d2] / capacity²` on both cross
pairs. -/
def capBlockSpec (p : CVRPProblem) (cc : ℚ) (L : ℕ) (lo hi : ℤ)
    (k : QKey) : ℚ :=
  ((combos2 ((natCastRange L).filter (fun d => d ≠ p.depot_idx))).map (fun dd =>
    ((combos2 (intRange lo (hi + 1))).map (fun ss =>
      (if k = ((ss.1, dd.1), (ss.2, dd.2))
        then cc * (p.demands dd.1 * p.demands dd.2 / ((p.vehicle_capacity : ℚ)) ^ 2)
        else 0)
      + (if k = ((ss.1, dd.2), (ss.2, dd.1))
        then cc * (p.demands dd.1 * p.demands dd.2 / ((p.vehicle_capacity : ℚ)) ^ 2)
        else 0))).sum)).sum

/-- Capacity penalty summed over per-vehicle blocks of size `max_deliveries`
(the layout stated by the spec, claim C3 as written). -/
def capPenaltyMd (p : CVRPProblem) (cc : ℚ) (L : ℕ) (k : QKey) : ℚ :=
  ((List.range p.num_vehicles).map (fun v : ℕ =>
    capBlockSpec p cc L
      ((v : ℤ) * (p.max_deliveries : ℤ))
      ((v : ℤ) * (p.max_deliveries : ℤ) + (p.max_deliveries : ℤ) - 1) k)).sum

/-- Capacity penalty summed over per-vehicle blocks of size `L - 1` (the
layout the code actually uses). -/
def capPenaltyLen (p : CVRPProblem) (cc : ℚ) (L : ℕ) (k : QKey) : ℚ :=
  ((List.range p.num_vehicles).map (fun v : ℕ =>
    capBlockSpec p cc L
      ((v : ℤ) * ((L : ℤ) - 1))
      ((v : ℤ) * ((L : ℤ) - 1) + (L : ℤ) - 2) k)).sum

/-- Sum of the travel costs along consecutive entries of a route. -/
def legSum (p : CVRPProblem) (r : List ℤ) : ℚ :=
  ((r.zip (r.drop 1)).map (fun ab => p.costs ab.1 ab.2)).sum

/-- The block of sample entries for one step of a one-hot assignment choosing
destination `σ s` at step `s`: one entry per destination, bit set exactly on
the chosen one. -/
def oneHotGroup (p : CVRPProblem) (s : ℕ) (σ : ℕ → ℤ) : List (Var × Bool) :=
  p.location_idx.map (fun d => (((s : ℤ), d), decide (d = σ s)))

/-- A hand-constructed perfect bit assignment (claim C4): variables listed in
increasing step order, grouped into `num_vehicles` blocks of `max_deliveries`
steps, with exactly the destination `σ s` selected at step `s`. -/
def perfectSample (p : CVRPProblem) (σ : ℕ → ℤ) : List (Var × Bool) :=
  (List.range p.num_vehicles).flatMap (fun v =>
    (List.range p.max_deliveries).flatMap (fun j =>
      oneHotGroup p (v * p.max_deliveries + j) σ))

/-- A sample whose first vehicle block selects the depot (destination `0`) at
every step (claim C9). -/
def depotOnlySample (p : CVRPProblem) : List (Var × Bool) :=
  (List.range p.max_deliveries).map (fun j : ℕ => (((j : ℤ), 0), true))

/-- All-ones distance matrix used by concrete counterexamples. -/
def oneDist : ℤ → ℤ → ℚ := fun _ _ => 1

/-- All-zeros distance matrix used by concrete counterexamples. -/
def zeroDist : ℤ → ℤ → ℚ := fun _ _ => 0

/-- Concrete problem: 3 canonical locations, depot 0, one vehicle,
`max_deliveries = 1` (so `max_deliveries ≠ L - 1`), unit demands, capacity 1. -/
def cexProblemA : CVRPProblem :=
  { problem_identifier := "cexA"
    location_idx := [0, 1, 2]
    vehicle_capacity := 1
    num_vehicles := 1
    demands := fun d => if d = 0 then 0 else 1
    max_deliveries := 1
    costs := fun _ _ => 0
    depot_idx := 0 }

/-- Concrete problem: like `cexProblemA` but with two vehicles. -/
def cexProblemB : CVRPProblem :=
  { cexProblemA with problem_identifier := "cexB", num_vehicles := 2 }

/-- Concrete malformed problem: `num_vehicles = 0` (non-positive). -/
def cexProblemNV0 : CVRPProblem :=
  { cexProblemA with problem_identifier := "cexNV0", num_vehicles := 0 }

/-- Concrete problem with 2 canonical locations, one vehicle and
`max_deliveries = 2`, so a perfect assignment must select the depot at one of
the two steps. -/
def cexProblemC : CVRPProblem :=
  { problem_identifier := "cexC"
    location_idx := [0, 1]
    vehicle_capacity := 1
    num_vehicles := 1
    demands := fun d => if d = 0 then 0 else 1
    max_deliveries := 2
    costs := fun _ _ => 0
    depot_idx := 0 }

/-- Perfect assignment for `cexProblemC`: step 0 visits destination 1, step 1
stays at the depot. -/
def sigmaC : ℕ → ℤ := fun s => if s = 0 then 1 else 0

/-- Concrete well-formed problem: 3 canonical locations, one vehicle,
`max_deliveries = 2 = L - 1`. -/
def witProblem : CVRPProblem :=
  { problem_identifier := "wit"
    location_idx := [0, 1, 2]
    vehicle_capacity := 10
    num_vehicles := 1
    demands := fun d => if d = 0 then 0 else 1
    max_deliveries := 2
    costs := fun i j => if i = j then 0 else 1
    depot_idx := 0 }

/-- Perfect assignment for `witProblem`: step `s` visits destination `s+1`. -/
def sigmaWit : ℕ → ℤ := fun s => (s : ℤ) + 1

theorem QMap.getD_empty (k : QKey) : QMap.empty.getD k = 0 := rfl

theorem QMap.getD_add1 (m : QMap) (k : QKey) (v : ℚ) (k' : QKey) :
    (m.add1 k v).getD k' = m.getD k' + (if k' = k then v else 0) := by
  unfold QMap.add1 QMap.getD
  by_cases hk : k' = k
  · subst hk
    by_cases hmem : k' ∈ m.keys <;> simp [hmem, QMap.getD]
  · by_cases hmem : k' ∈ m.keys <;> by_cases hkm : k ∈ m.keys <;>
      simp [hmem, hkm, hk]

theorem QMap.mem_keys_add1 (m : QMap) (k : QKey) (v : ℚ) (k' : QKey) :
    k' ∈ (m.add1 k v).keys ↔ k' ∈ m.keys ∨ k' = k := by
  unfold QMap.add1
  by_cases hkm : k ∈ m.keys
  · simp only [hkm, if_pos]
    constructor
    · exact Or.inl
    · rintro (h | rfl) <;> [exact h; exact hkm]
  · simp [hkm]

theorem contribSum_nil (k : QKey) : contribSum [] k = 0 := rfl

theorem contribSum_cons (kv : QKey × ℚ) (l : List (QKey × ℚ)) (k : QKey) :
    contribSum (kv :: l) k = (if kv.1 = k then kv.2 else 0) + contribSum l k := by
  simp [contribSum]

theorem contribSum_append (l₁ l₂ : List (QKey × ℚ)) (k : QKey) :
    contribSum (l₁ ++ l₂) k = contribSum l₁ k + contribSum l₂ k := by
  simp [contribSum]

theorem contribSum_flatMap {α : Type} (l : List α) (f : α → List (QKey × ℚ))
    (k : QKey) :
    contribSum (l.flatMap f) k = (l.map (fun x => contribSum (f x) k)).sum := by
  induction l with
  | nil => rfl
  | cons x xs ih => simp [List.flatMap_cons, contribSum_append, ih]

theorem QMap.getD_addAll (m : QMap) (l : List (QKey × ℚ)) (k : QKey) :
    (m.addAll l).getD k = m.getD k + contribSum l k := by
  induction l generalizing m with
  | nil => simp [QMap.addAll, contribSum_nil]
  | cons kv l ih =>
      have : (m.addAll (kv :: l)) = (m.add1 kv.1 kv.2).addAll l := rfl
      rw [this, ih, QMap.getD_add1, contribSum_cons]
      by_cases h : kv.1 = k
      · rw [if_pos h, if_pos h.symm]
        ring
      · rw [if_neg h, if_neg (fun hc => h hc.symm)]
        ring

theorem QMap.mem_keys_addAll (m : QMap) (l : List (QKey × ℚ)) (k : QKey) :
    k ∈ (m.addAll l).keys ↔ k ∈ m.keys ∨ k ∈ l.map Prod.fst := by
  induction l generalizing m with
  | nil => simp [QMap.addAll]
  | cons kv l ih =>
      have : (m.addAll (kv :: l)) = (m.add1 kv.1 kv.2).addAll l := rfl
      rw [this, ih, QMap.mem_keys_add1]
      simp [or_assoc, or_comm, or_left_comm]

/-- Splitting a sum of pointwise sums of two functions. -/
theorem mapSum_add {α : Type} (l : List α) (f g : α → ℚ) :
    (l.map (fun x => f x + g x)).sum = (l.map f).sum + (l.map g).sum := by
  induction l with
  | nil => simp
  | cons x xs ih => simp [ih]; ring

theorem mapSum_congr {α : Type} {l : List α} {f g : α → ℚ}
    (h : ∀ x ∈ l, f x = g x) : (l.map f).sum = (l.map g).sum := by
  rw [List.map_congr_left h]

/-- Pulling a condition that does not depend on the summation index out of a
sum of guarded terms. -/
theorem mapSum_ite_and {α : Type} (l : List α) (C : Prop) [Decidable C]
    (D : α → Prop) [DecidablePred D] (f : α → ℚ) :
    (l.map (fun x => if C ∧ D x then f x else 0)).sum
      = if C then (l.map (fun x => if D x then f x else 0)).sum else 0 := by
  by_cases hC : C
  · simp [hC]
  · simp [hC]

/-- Summing an indicator of `(i : ℤ) = a` over `List.range L`. -/
theorem sum_range_cast_ite (L : ℕ) (a : ℤ) (f : ℤ → ℚ) :
    ((List.range L).map (fun i : ℕ => if (i : ℤ) = a then f (i : ℤ) else 0)).sum
      = if 0 ≤ a ∧ a < (L : ℤ) then f a else 0 := by
  induction L with
  | zero =>
      simp only [List.range_zero, List.map_nil, List.sum_nil]
      have h0 : ¬(0 ≤ a ∧ a < ((0 : ℕ) : ℤ)) := by push_cast; omega
      rw [if_neg h0]
  | succ n ih =>
      rw [List.range_succ, List.map_append, List.sum_append, ih]
      simp only [List.map_cons, List.map_nil, List.sum_cons, List.sum_nil]
      by_cases ha : (n : ℤ) = a
      · have h1 : ¬(0 ≤ a ∧ a < (n : ℤ)) := by omega
        have h2 : 0 ≤ a ∧ a < ((n + 1 : ℕ) : ℤ) := by push_cast; omega
        rw [if_neg h1, if_pos ha, if_pos h2, ha]
        ring
      · have h2 : (0 ≤ a ∧ a < ((n + 1 : ℕ) : ℤ)) ↔ (0 ≤ a ∧ a < (n : ℤ)) := by
          push_cast; omega
        rw [if_neg ha, if_congr h2 rfl rfl]
        ring

/-- Summing an indicator of `x = s` over the int range `[a, b)`. -/
theorem sum_intRange_ite (a b s : ℤ) (f : ℤ → ℚ) :
    ((intRange a b).map (fun x => if x = s then f x else 0)).sum
      = if a ≤ s ∧ s < b then f s else 0 := by
  unfold intRange
  rw [List.map_map]
  have heq : ((fun x => if x = s then f x else 0) ∘ fun i : ℕ => a + (i : ℤ))
      = fun i : ℕ => if (i : ℤ) = s - a then f s else 0 := by
    funext i
    simp only [Function.comp]
    by_cases h : a + (i : ℤ) = s
    · have h' : (i : ℤ) = s - a := by omega
      rw [if_pos h, if_pos h', h]
    · have h' : ¬((i : ℤ) = s - a) := by omega
      rw [if_neg h, if_neg h']
  rw [heq, sum_range_cast_ite ((b - a).toNat) (s - a) (fun _ => f s)]
  by_cases hab : a ≤ s ∧ s < b
  · have h1 : 0 ≤ s - a ∧ s - a < (((b - a).toNat : ℕ) : ℤ) := by omega
    rw [if_pos h1, if_pos hab]
  · have h1 : ¬(0 ≤ s - a ∧ s - a < (((b - a).toNat : ℕ) : ℤ)) := by omega
    rw [if_neg h1, if_neg hab]

theorem mem_intRange {a b x : ℤ} : x ∈ intRange a b ↔ a ≤ x ∧ x < b := by
  unfold intRange
  simp only [List.mem_map, List.mem_range]
  constructor
  · rintro ⟨i, hi, rfl⟩
    omega
  · rintro ⟨h1, h2⟩
    exact ⟨(x - a).toNat, by omega, by omega⟩

theorem mem_combos2 {α : Type} {l : List α} {p : α × α} (h : p ∈ combos2 l) :
    p.1 ∈ l ∧ p.2 ∈ l := by
  induction l with
  | nil => cases h
  | cons x xs ih =>
      simp only [combos2, List.mem_append, List.mem_map] at h
      rcases h with ⟨y, hy, rfl⟩ | h
      · exact ⟨List.mem_cons_self x xs, List.mem_cons_of_mem x hy⟩
      · exact ⟨List.mem_cons_of_mem x (ih h).1, List.mem_cons_of_mem x (ih h).2⟩

theorem decodeStep_false (p : CVRPProblem) (st : DecodeState) (v : Var) :
    decodeStep p st (v, false) = st := by
  unfold decodeStep
  by_cases h : st.done <;> simp [h]

theorem decodeStep_done (p : CVRPProblem) (st : DecodeState) (e : Var × Bool)
    (h : st.done = true) : decodeStep p st e = st := by
  unfold decodeStep
  simp [h]

/-- Decoding only ever appends to the list of finished routes. -/
theorem decodeFold_results_extend (p : CVRPProblem) (l : List (Var × Bool)) :
    ∀ st : DecodeState, ∃ t, (l.foldl (decodeStep p) st).all_vehicles_results
      = st.all_vehicles_results ++ t := by
  induction l with
  | nil => intro st; exact ⟨[], by simp⟩
  | cons e l ih =>
      intro st
      obtain ⟨t, ht⟩ := ih (decodeStep p st e)
      rw [List.foldl_cons, ht]
      unfold decodeStep
      by_cases hd : st.done
      · exact ⟨t, by simp [hd]⟩
      · by_cases hb : e.2 = true
        · by_cases hc : p.max_deliveries = st.step + 1
          · refine ⟨(p.depot_idx :: (if e.1.2 ≠ 0 then st.vehicle_result ++ [e.1.2]
              else st.vehicle_result) ++ [p.depot_idx]) :: t, ?_⟩
            simp [hd, hb, hc]
          · exact ⟨t, by simp [hd, hb, hc]⟩
        · exact ⟨t, by simp [hd, hb]⟩

theorem decodeStep_good (p : CVRPProblem) (st : DecodeState) (e : Var × Bool)
    (h : GoodState p st) : GoodState p (decodeStep p st e) := by
  obtain ⟨hr, hbuf⟩ := h
  unfold decodeStep
  by_cases hd : st.done
  · simpa [hd] using ⟨hr, hbuf⟩
  · by_cases hb : e.2 = true
    · have hbuf' : ∀ x ∈ (if e.1.2 ≠ 0 then st.vehicle_result ++ [e.1.2]
          else st.vehicle_result), x ≠ 0 := by
        by_cases hz : e.1.2 ≠ 0
        · intro x hx
          rw [if_pos hz] at hx
          rcases List.mem_append.mp hx with hx | hx
          · exact hbuf x hx
          · rw [List.mem_singleton.mp hx]; exact hz
        · rw [if_neg hz]; exact hbuf
      by_cases hc : p.max_deliveries = st.step + 1
      · simp only [hd, hb, hc, Bool.false_eq_true, if_false, if_true]
        constructor
        · intro r hrm
          simp only [List.mem_append, List.mem_singleton] at hrm
          rcases hrm with hrm | rfl
          · exact hr r hrm
          · exact ⟨_, rfl, hbuf'⟩
        · intro x hx
          cases hx
      · simp only [hd, hb, hc, Bool.false_eq_true, if_false, if_true]
        exact ⟨hr, hbuf'⟩
    · simpa [hd, hb] using ⟨hr, hbuf⟩

theorem decodeFold_good (p : CVRPProblem) (l : List (Var × Bool)) :
    ∀ st : DecodeState, GoodState p st → GoodState p (l.foldl (decodeStep p) st) := by
  induction l with
  | nil => intro st h; exact h
  | cons e l ih =>
      intro st h
      exact ih _ (decodeStep_good p st e h)

theorem decodeRoutes_good (p : CVRPProblem) (sample : List (Var × Bool)) :
    GoodState p (decodeRoutes p sample) := by
  refine decodeFold_good p sample _ ⟨?_, ?_⟩
  · intro r hr; cases hr
  · intro x hx; cases hx

theorem flatMap_eq_nil_of {α β : Type} {l : List α} {f : α → List β}
    (h : ∀ x ∈ l, f x = []) : l.flatMap f = [] := by
  induction l with
  | nil => rfl
  | cons x xs ih =>
      rw [List.flatMap_cons, h x (List.mem_cons_self x xs),
        ih (fun y hy => h y (List.mem_cons_of_mem x hy))]
      rfl

theorem mapSum_zero {α : Type} {l : List α} {f : α → ℚ}
    (h : ∀ x ∈ l, f x = 0) : (l.map f).sum = 0 := by
  induction l with
  | nil => rfl
  | cons x xs ih =>
      rw [List.map_cons, List.sum_cons, h x (List.mem_cons_self x xs),
        ih (fun y hy => h y (List.mem_cons_of_mem x hy)), zero_add]

theorem contribSum_map {α : Type} (l : List α) (κ : α → QKey) (w : α → ℚ)
    (k : QKey) :
    contribSum (l.map (fun x => (κ x, w x))) k
      = (l.map (fun x => if κ x = k then w x else 0)).sum := by
  unfold contribSum
  rw [List.map_map]
  rfl

theorem sum_natCastRange_ite (L : ℕ) (a : ℤ) (f : ℤ → ℚ) :
    ((natCastRange L).map (fun x => if x = a then f x else 0)).sum
      = if isDest L a then f a else 0 := by
  unfold natCastRange isDest
  rw [List.map_map]
  have heq : ((fun x => if x = a then f x else 0) ∘ fun i : ℕ => (i : ℤ))
      = fun i : ℕ => if (i : ℤ) = a then f (i : ℤ) else 0 := by
    funext i; rfl
  rw [heq, sum_range_cast_ite]

theorem ite_ite_and (C D : Prop) [Decidable C] [Decidable D] (x : ℚ) :
    (if C then (if D then x else 0) else 0) = if C ∧ D then x else 0 := by
  by_cases hC : C <;> by_cases hD : D <;> simp [hC, hD]

/-- C8: for every pair of coefficient maps, the combined QUBO's key set is
the union of the two key sets, and every combined coefficient is the
objective coefficient plus the constraint coefficient, absent keys defaulting
to 0.  The combiner is a total function of its two arguments, so it is pure
and deterministic with no error cases (empty maps included). -/
theorem claim_C8_combiner (a b : QMap) (k : QKey) :
    (combineQubo a b).getD k = a.getD k + b.getD k
    ∧ (k ∈ (combineQubo a b).keys ↔ k ∈ a.keys ∨ k ∈ b.keys) := by
  constructor
  · show (if k ∈ (a.keys ++ b.keys).dedup then a.getD k + b.getD k else 0)
      = a.getD k + b.getD k
    by_cases h : k ∈ (a.keys ++ b.keys).dedup
    · rw [if_pos h]
    · rw [if_neg h]
      rw [List.mem_dedup, List.mem_append] at h
      push_neg at h
      unfold QMap.getD
      rw [if_neg h.1, if_neg h.2, add_zero]
  · show k ∈ (a.keys ++ b.keys).dedup ↔ _
    rw [List.mem_dedup, List.mem_append]

/-- Helper: encoding performs no validation and is total.  For every problem
with `num_vehicles = 0` (a non-positive vehicle count) the objective
encoders, the constraint encoder and the combined wrapper all complete
normally and return the empty coefficient map instead of raising a
validation error. -/
theorem encode_nv_zero_total (distances : ℤ → ℤ → ℚ) (cc A : ℚ)
    (p : CVRPProblem) (hnv : p.num_vehicles = 0) :
    (vrp_objective_function distances p cc).keys = []
    ∧ (cvrp_objective_function distances p cc).keys = []
    ∧ (constraints p A).keys = []
    ∧ (wrap_vrp_qubo_problem distances ⟨A, cc⟩ p).keys = [] := by
  have hvrpc : vrpContribs distances p cc = [] := by
    unfold vrpContribs
    rw [hnv]
    rfl
  have hcapc : cvrpCapContribs p cc = [] := by
    unfold cvrpCapContribs
    rw [hnv]
    rfl
  have hconc : constraintsContribs p A = [] := by
    unfold constraintsContribs
    rw [hnv]
    simp only [Nat.zero_mul, List.range_zero, List.map_nil, List.flatMap_nil,
      List.append_nil]
    exact flatMap_eq_nil_of (fun d _ => rfl)
  have hvrp : (vrp_objective_function distances p cc).keys = [] := by
    unfold vrp_objective_function
    rw [hvrpc]
    rfl
  refine ⟨hvrp, ?_, ?_, ?_⟩
  · unfold cvrp_objective_function
    rw [hcapc]
    exact hvrp
  · unfold constraints
    rw [hconc]
    rfl
  · unfold wrap_vrp_qubo_problem combineQubo
    have hcon : (constraints p A).keys = [] := by
      unfold constraints
      rw [hconc]
      rfl
    rw [hvrp, hcon]
    rfl

/-- C2: the claim states that a malformed problem — e.g. one with
non-positive `num_vehicles` — fails fast at encode time with a validation
error before any coefficient is built and is never silently encoded into a
QUBO.  The code contradicts this stated error-handling policy: evaluated at
the concrete malformed problem `cexProblemNV0` (`num_vehicles = 0`), both
objective encoders, the constraint encoder and the combined wrapper all
complete normally and silently return an empty QUBO; no validation exists
anywhere at the encode boundary. -/
theorem claim_C2_code_bug :
    cexProblemNV0.num_vehicles = 0
    ∧ (vrp_objective_function oneDist cexProblemNV0 1).keys = []
    ∧ (cvrp_objective_function oneDist cexProblemNV0 1).keys = []
    ∧ (constraints cexProblemNV0 1).keys = []
    ∧ (wrap_vrp_qubo_problem oneDist ⟨1, 1⟩ cexProblemNV0).keys = [] := by
  have h := encode_nv_zero_total oneDist 1 1 cexProblemNV0 rfl
  exact ⟨rfl, h.1, h.2.1, h.2.2.1, h.2.2.2⟩

/-- C1 counterexample: on `cexProblemA` (three locations, one vehicle,
`max_deliveries = 1`) the objective coefficient map contains a key whose step
component is `1`, outside `{0, …, num_vehicles*max_deliveries - 1} = {0}`:
the objective encoder's step space is not `num_vehicles * max_deliveries`. -/
theorem claim_C1_counterexample :
    ¬ (∀ k ∈ (vrp_objective_function oneDist cexProblemA 1).keys,
        k.1.1 < ((cexProblemA.num_vehicles * cexProblemA.max_deliveries : ℕ) : ℤ)) := by
  decide

/-- C4 counterexample: for `cexProblemC` (two locations, one vehicle,
`max_deliveries = 2`) the perfect assignment `sigmaC` selects exactly one
destination per step and each non-depot destination exactly once, yet the
decoded route is `[0, 1, 0]` of length `3 ≠ max_deliveries + 2 = 4`, because
the step that stays at the depot contributes no interior stop. -/
theorem claim_C4_counterexample :
    ¬ (∀ r ∈ (unwrap_qbsolv_solution cexProblemC (perfectSample cexProblemC sigmaC)).routes,
        r.length = cexProblemC.max_deliveries + 2) := by decide

theorem mem_natCastRange {L : ℕ} {x : ℤ} :
    x ∈ natCastRange L ↔ 0 ≤ x ∧ x < (L : ℤ) := by
  unfold natCastRange
  simp only [List.mem_map, List.mem_range]
  constructor
  · rintro ⟨i, hi, rfl⟩
    omega
  · rintro ⟨h1, h2⟩
    exact ⟨x.toNat, by omega, by omega⟩

theorem natCastRange_nodup (L : ℕ) : (natCastRange L).Nodup :=
  (List.nodup_range L).map (fun a b h => by exact_mod_cast h)

theorem natCastRange_length (L : ℕ) : (natCastRange L).length = L := by
  simp [natCastRange]

theorem fold_all_false (p : CVRPProblem) (es : List (Var × Bool)) :
    ∀ st : DecodeState, (∀ e ∈ es, e.2 = false) →
      es.foldl (decodeStep p) st = st := by
  induction es with
  | nil => intro st _; rfl
  | cons e es ih =>
      intro st h
      rw [List.foldl_cons]
      have he : e.2 = false := h e (List.mem_cons_self e es)
      have : decodeStep p st e = st := by
        obtain ⟨v, b⟩ := e
        simp only at he
        subst he
        exact decodeStep_false p st v
      rw [this]
      exact ih st (fun x hx => h x (List.mem_cons_of_mem e hx))

theorem fold_done (p : CVRPProblem) (es : List (Var × Bool)) :
    ∀ st : DecodeState, st.done = true →
      es.foldl (decodeStep p) st = st := by
  induction es with
  | nil => intro st _; rfl
  | cons e es ih =>
      intro st h
      rw [List.foldl_cons, decodeStep_done p st e h]
      exact ih st h

theorem decodeStep_true_nonzero (p : CVRPProblem) (res : List (List ℤ))
    (cur : List ℤ) (i veh : ℕ) (s d : ℤ) (hd : d ≠ 0) :
    decodeStep p ⟨res, cur, i, veh, false⟩ ((s, d), true)
      = if p.max_deliveries = i + 1 then
          ⟨res ++ [p.depot_idx :: (cur ++ [d]) ++ [p.depot_idx]], [], 0,
            veh + 1, decide (p.num_vehicles ≤ veh + 1)⟩
        else ⟨res, cur ++ [d], i + 1, veh, false⟩ := by
  unfold decodeStep
  by_cases hc : p.max_deliveries = i + 1 <;> simp [hd, hc]

theorem decodeStep_true_zero (p : CVRPProblem) (res : List (List ℤ))
    (cur : List ℤ) (i veh : ℕ) (s : ℤ) :
    decodeStep p ⟨res, cur, i, veh, false⟩ ((s, 0), true)
      = if p.max_deliveries = i + 1 then
          ⟨res ++ [p.depot_idx :: cur ++ [p.depot_idx]], [], 0,
            veh + 1, decide (p.num_vehicles ≤ veh + 1)⟩
        else ⟨res, cur, i + 1, veh, false⟩ := by
  unfold decodeStep
  by_cases hc : p.max_deliveries = i + 1 <;> simp [hc]

theorem routeAccum_fold_snd_length (p : CVRPProblem) (rs : List (List ℤ)) :
    ∀ acc : ℚ × List ℚ, (∀ r ∈ rs, r ≠ []) →
      (rs.foldl (routeAccum p) acc).2.length = acc.2.length + rs.length := by
  induction rs with
  | nil => intro acc _; simp
  | cons r rs ih =>
      intro acc h
      rw [List.foldl_cons, ih _ (fun x hx => h x (List.mem_cons_of_mem r hx))]
      have hr : r ≠ [] := h r (List.mem_cons_self r rs)
      cases r with
      | nil => exact absurd rfl hr
      | cons prev rest =>
          simp only [routeAccum, List.length_append, List.length_cons,
            List.length_nil]
          omega

/-- C10: for every problem and every bit assignment over the variable space,
feasible or not, every emitted route begins and ends with `depot_idx` (routes
are only emitted when a buffer closes, so a trailing partially-filled buffer
is discarded and fewer than `num_vehicles` routes may be returned), and
`total_demands` carries exactly one entry per returned route. -/
theorem claim_C10_decoder_invariants (p : CVRPProblem)
    (sample : List (Var × Bool)) :
    (∀ r ∈ (unwrap_qbsolv_solution p sample).routes,
        2 ≤ r.length ∧ r.head? = some p.depot_idx
          ∧ r.getLast? = some p.depot_idx)
    ∧ (unwrap_qbsolv_solution p sample).total_demands.length
        = (unwrap_qbsolv_solution p sample).routes.length := by
  obtain ⟨hshape, -⟩ := decodeRoutes_good p sample
  constructor
  · intro r hr
    obtain ⟨mid, rfl, -⟩ := hshape r hr
    refine ⟨?_, rfl, ?_⟩
    · simp only [List.length_cons, List.length_append, List.length_singleton]
      omega
    · show ((p.depot_idx :: mid) ++ [p.depot_idx]).getLast? = some p.depot_idx
      exact List.getLast?_concat _
  · show ((unwrap_qbsolv_solution p sample).routes.foldl (routeAccum p)
      (0, [])).2.length = _
    rw [routeAccum_fold_snd_length p _ _ ?_]
    · simp
    · intro r hr
      obtain ⟨mid, rfl, -⟩ := hshape r hr
      simp

/-- C10 witness: the decoder invariants instantiated at a concrete problem
and a concrete infeasible sample (two destinations selected at step 0, none
at step 1). -/
theorem claim_C10_decoder_invariants_witness :
    (∀ r ∈ (unwrap_qbsolv_solution witProblem
        [((0, 1), true), ((0, 2), true), ((1, 1), false)]).routes,
        2 ≤ r.length ∧ r.head? = some witProblem.depot_idx
          ∧ r.getLast? = some witProblem.depot_idx)
    ∧ (unwrap_qbsolv_solution witProblem
        [((0, 1), true), ((0, 2), true), ((1, 1), false)]).total_demands.length
        = (unwrap_qbsolv_solution witProblem
        [((0, 1), true), ((0, 2), true), ((1, 1), false)]).routes.length :=
  claim_C10_decoder_invariants witProblem
    [((0, 1), true), ((0, 2), true), ((1, 1), false)]

theorem routeAccum_inner (p : CVRPProblem) (rest : List ℤ) :
    ∀ (c0 d0 : ℚ) (prev : ℤ),
    rest.foldl (fun (s : ℚ × ℚ × ℤ) dest =>
        (s.1 + p.costs s.2.2 dest, s.2.1 + p.demands dest, dest)) (c0, d0, prev)
      = (c0 + (((prev :: rest).zip rest).map (fun ab => p.costs ab.1 ab.2)).sum,
         d0 + (rest.map p.demands).sum,
         rest.getLastD prev) := by
  induction rest with
  | nil => intro c0 d0 prev; simp
  | cons x xs ih =>
      intro c0 d0 prev
      rw [List.foldl_cons, ih]
      simp only [List.zip_cons_cons, List.map_cons, List.sum_cons,
        List.getLastD_cons]
      rw [add_assoc, add_assoc]

theorem routeAccum_closed (p : CVRPProblem) (acc : ℚ × List ℚ) (mid : List ℤ)
    (hdiag : p.costs p.depot_idx p.depot_idx = 0) :
    routeAccum p acc (p.depot_idx :: mid ++ [p.depot_idx])
      = (acc.1 + legSum p (p.depot_idx :: mid ++ [p.depot_idx]),
         acc.2 ++ [((mid ++ [p.depot_idx]).map p.demands).sum]) := by
  show (let inner := (mid ++ [p.depot_idx]).foldl _ (acc.1, 0, p.depot_idx)
    (inner.1 + p.costs inner.2.2 p.depot_idx, acc.2 ++ [inner.2.1])) = _
  rw [routeAccum_inner]
  simp only [List.getLastD_concat, hdiag, add_zero, zero_add]
  unfold legSum
  rw [show (p.depot_idx :: mid ++ [p.depot_idx]).drop 1 = mid ++ [p.depot_idx]
    from rfl]
  rfl

theorem routeAccum_fold_closed (p : CVRPProblem)
    (hdiag : p.costs p.depot_idx p.depot_idx = 0) (rs : List (List ℤ)) :
    ∀ acc : ℚ × List ℚ,
    (∀ r ∈ rs, ∃ mid, r = p.depot_idx :: mid ++ [p.depot_idx]) →
    rs.foldl (routeAccum p) acc
      = (acc.1 + (rs.map (legSum p)).sum,
         acc.2 ++ rs.map (fun r => ((r.drop 1).map p.demands).sum)) := by
  induction rs with
  | nil => intro acc _; simp
  | cons r rs ih =>
      intro acc h
      obtain ⟨mid, rfl⟩ := h _ (List.mem_cons_self r rs)
      rw [List.foldl_cons, routeAccum_closed p acc mid hdiag,
        ih _ (fun x hx => h x (List.mem_cons_of_mem _ hx))]
      simp only [List.map_cons, List.sum_cons]
      rw [Prod.mk.injEq]
      refine ⟨by ring, ?_⟩
      rw [List.append_assoc, List.singleton_append]
      rfl

theorem filter_demands_sum (p : CVRPProblem)
    (hdem : p.demands p.depot_idx = 0) (mid : List ℤ) :
    ((mid.filter (fun x => x ≠ p.depot_idx)).map p.demands).sum
      = (mid.map p.demands).sum := by
  induction mid with
  | nil => rfl
  | cons x xs ih =>
      by_cases hx : x = p.depot_idx
      · rw [List.filter_cons_of_neg (by simp [hx]), ih, List.map_cons,
          List.sum_cons, hx, hdem, zero_add]
      · rw [List.filter_cons_of_pos (by simp [hx]), List.map_cons,
          List.sum_cons, ih, List.map_cons, List.sum_cons]

/-- C5: for every decoded solution, given a cost matrix with zero diagonal
and zero demand at the depot, the recomputed `cost` equals the sum over all
routes of `costs[prev][curr]` along consecutive route entries (both depot
legs included), and `total_demands` holds per route the demand sum over the
route's interior non-depot stops; both are recomputed from the problem's
`costs` and `demands` tables, not taken from any sampler energy. -/
theorem claim_C5_cost_recompute (p : CVRPProblem) (sample : List (Var × Bool))
    (hdiag : ∀ i : ℤ, p.costs i i = 0)
    (hdem : p.demands p.depot_idx = 0) :
    (unwrap_qbsolv_solution p sample).cost
      = ((unwrap_qbsolv_solution p sample).routes.map (legSum p)).sum
    ∧ (unwrap_qbsolv_solution p sample).total_demands
      = (unwrap_qbsolv_solution p sample).routes.map (fun r =>
          (((r.drop 1).dropLast.filter (fun x => x ≠ p.depot_idx)).map
            p.demands).sum) := by
  obtain ⟨hshape, -⟩ := decodeRoutes_good p sample
  have hfold := routeAccum_fold_closed p (hdiag _)
    (decodeRoutes p sample).all_vehicles_results (0, [])
    (fun r hr => (hshape r hr).imp (fun mid h => h.1))
  simp only [zero_add, List.nil_append] at hfold
  have h2 : (unwrap_qbsolv_solution p sample).routes
      = (decodeRoutes p sample).all_vehicles_results := rfl
  constructor
  · show ((decodeRoutes p sample).all_vehicles_results.foldl (routeAccum p)
      (0, [])).1 = _
    rw [hfold, h2]
  · show ((decodeRoutes p sample).all_vehicles_results.foldl (routeAccum p)
      (0, [])).2 = _
    rw [hfold, h2]
    apply List.map_congr_left
    intro r hr
    obtain ⟨mid, rfl, -⟩ := hshape r hr
    rw [show ((p.depot_idx :: mid ++ [p.depot_idx]).drop 1) = mid ++ [p.depot_idx]
      from rfl, List.dropLast_concat, filter_demands_sum p hdem,
      List.map_append, List.sum_append]
    simp [hdem]

/-- C5 witness: the recomputation equations instantiated at a concrete
problem and a concrete sample decoding to one route `[0, 1, 2, 0]`. -/
theorem claim_C5_cost_recompute_witness :
    (unwrap_qbsolv_solution witProblem [((0, 1), true), ((1, 2), true)]).cost
      = ((unwrap_qbsolv_solution witProblem
          [((0, 1), true), ((1, 2), true)]).routes.map (legSum witProblem)).sum
    ∧ (unwrap_qbsolv_solution witProblem
        [((0, 1), true), ((1, 2), true)]).total_demands
      = (unwrap_qbsolv_solution witProblem
          [((0, 1), true), ((1, 2), true)]).routes.map (fun r =>
          (((r.drop 1).dropLast.filter (fun x => x ≠ witProblem.depot_idx)).map
            witProblem.demands).sum) :=
  claim_C5_cost_recompute witProblem [((0, 1), true), ((1, 2), true)]
    (fun i => by simp [witProblem]) (by simp [witProblem])

theorem fold_depot_entries (p : CVRPProblem) :
    ∀ (es : List (Var × Bool)), (∀ e ∈ es, e.1.2 = 0 ∧ e.2 = true) →
    ∀ (res : List (List ℤ)) (cur : List ℤ) (i veh : ℕ),
    i + es.length = p.max_deliveries → es ≠ [] →
    es.foldl (decodeStep p) ⟨res, cur, i, veh, false⟩
      = ⟨res ++ [p.depot_idx :: cur ++ [p.depot_idx]], [], 0, veh + 1,
          decide (p.num_vehicles ≤ veh + 1)⟩ := by
  intro es
  induction es with
  | nil => intro _ _ _ _ _ _ hne; exact absurd rfl hne
  | cons e es ih =>
      intro hz res cur i veh hlen _
      obtain ⟨⟨s, d⟩, b⟩ := e
      obtain ⟨hd0, hb⟩ := hz _ (List.mem_cons_self _ es)
      simp only at hd0 hb
      subst hd0 hb
      rw [List.foldl_cons, decodeStep_true_zero]
      cases es with
      | nil =>
          have hmd : p.max_deliveries = i + 1 := by
            simp only [List.length_cons, List.length_nil] at hlen
            omega
          rw [if_pos hmd]
          rfl
      | cons e2 es2 =>
          have hmd : p.max_deliveries ≠ i + 1 := by
            simp only [List.length_cons] at hlen
            omega
          rw [if_neg hmd]
          refine (ih (fun x hx => hz x (List.mem_cons_of_mem _ hx)) res cur
            (i + 1) veh ?_ (by simp)).trans rfl
          simp only [List.length_cons] at hlen ⊢
          omega

theorem routeAccum_snd_cons (p : CVRPProblem) (acc : ℚ × List ℚ) (prev : ℤ)
    (rest : List ℤ) :
    (routeAccum p acc (prev :: rest)).2 = acc.2
      ++ [(rest.foldl (fun (s : ℚ × ℚ × ℤ) dest =>
            (s.1 + p.costs s.2.2 dest, s.2.1 + p.demands dest, dest))
            (acc.1, 0, prev)).2.1] := rfl

theorem routeAccum_fold_snd_extend (p : CVRPProblem) (rs : List (List ℤ)) :
    ∀ acc : ℚ × List ℚ, ∃ t, (rs.foldl (routeAccum p) acc).2 = acc.2 ++ t := by
  induction rs with
  | nil => intro acc; exact ⟨[], by simp⟩
  | cons r rs ih =>
      intro acc
      obtain ⟨t, ht⟩ := ih (routeAccum p acc r)
      rw [List.foldl_cons, ht]
      cases r with
      | nil => exact ⟨t, rfl⟩
      | cons prev rest =>
          rw [routeAccum_snd_cons, List.append_assoc]
          exact ⟨_, rfl⟩

/-- C9: for every problem (canonical depot `0`, at least one delivery slot)
and every bit assignment whose first vehicle block selects the depot at every
one of its `max_deliveries` steps, the decoder closes that vehicle's route as
exactly `[depot_idx, depot_idx]`, and the cost/demand recomputation completes
on it, producing the demand entry `demands[depot_idx]` for that route. -/
theorem claim_C9_empty_route (p : CVRPProblem) (rest : List (Var × Bool))
    (hmd : 1 ≤ p.max_deliveries) (h0 : p.depot_idx = 0) :
    (unwrap_qbsolv_solution p (depotOnlySample p ++ rest)).routes.head?
        = some [p.depot_idx, p.depot_idx]
    ∧ (unwrap_qbsolv_solution p (depotOnlySample p ++ rest)).total_demands.head?
        = some (p.demands p.depot_idx) := by
  have hz : ∀ e ∈ depotOnlySample p, e.1.2 = 0 ∧ e.2 = true := by
    intro e he
    unfold depotOnlySample at he
    simp only [List.mem_map, List.mem_range] at he
    obtain ⟨j, -, rfl⟩ := he
    exact ⟨rfl, rfl⟩
  have hlen : (depotOnlySample p).length = p.max_deliveries := by
    simp [depotOnlySample]
  have hne : depotOnlySample p ≠ [] := by
    intro h
    rw [h] at hlen
    simp at hlen
    omega
  have hfold1 := fold_depot_entries p (depotOnlySample p) hz [] [] 0 0
    (by rw [hlen]; omega) hne
  have hdec : decodeRoutes p (depotOnlySample p ++ rest)
      = rest.foldl (decodeStep p)
          ⟨[p.depot_idx :: [] ++ [p.depot_idx]], [], 0, 1,
            decide (p.num_vehicles ≤ 1)⟩ := by
    unfold decodeRoutes
    rw [List.foldl_append, hfold1]
    rfl
  obtain ⟨t, ht⟩ := decodeFold_results_extend p rest
    ⟨[p.depot_idx :: [] ++ [p.depot_idx]], [], 0, 1, decide (p.num_vehicles ≤ 1)⟩
  have hroutes : (unwrap_qbsolv_solution p (depotOnlySample p ++ rest)).routes
      = [p.depot_idx, p.depot_idx] :: t := by
    show (decodeRoutes p (depotOnlySample p ++ rest)).all_vehicles_results = _
    rw [hdec, ht]
    rfl
  constructor
  · rw [hroutes]
    rfl
  · show ((unwrap_qbsolv_solution p (depotOnlySample p ++ rest)).routes.foldl
      (routeAccum p) (0, [])).2.head? = _
    rw [hroutes, List.foldl_cons]
    obtain ⟨t', ht'⟩ := routeAccum_fold_snd_extend p t
      (routeAccum p (0, []) [p.depot_idx, p.depot_idx])
    rw [ht']
    have hacc : (routeAccum p (0, []) [p.depot_idx, p.depot_idx]).2
        = [0 + p.demands p.depot_idx] := rfl
    rw [hacc]
    simp

/-- C9 witness: the empty-route behaviour instantiated at `witProblem` with
an all-depot first block and an arbitrary tail entry. -/
theorem claim_C9_empty_route_witness :
    (unwrap_qbsolv_solution witProblem
        (depotOnlySample witProblem ++ [((5, 1), true)])).routes.head?
        = some [witProblem.depot_idx, witProblem.depot_idx]
    ∧ (unwrap_qbsolv_solution witProblem
        (depotOnlySample witProblem ++ [((5, 1), true)])).total_demands.head?
        = some (witProblem.demands witProblem.depot_idx) :=
  claim_C9_empty_route witProblem [((5, 1), true)] (by decide) (by decide)

theorem mem_natCastRange_drop1 {L : ℕ} {x : ℤ} :
    x ∈ (natCastRange L).drop 1 ↔ 1 ≤ x ∧ x < (L : ℤ) := by
  cases L with
  | zero =>
      simp only [natCastRange, List.range_zero, List.map_nil, List.drop_nil,
        List.not_mem_nil, false_iff]
      omega
  | succ m =>
      have hrest : (natCastRange (m + 1)).drop 1
          = (List.range m).map (fun j : ℕ => ((j + 1 : ℕ) : ℤ)) := by
        unfold natCastRange
        rw [List.range_succ_eq_map, List.map_cons, List.map_map]
        rfl
      rw [hrest]
      simp only [List.mem_map, List.mem_range]
      constructor
      · rintro ⟨j, hj, rfl⟩
        push_cast
        omega
      · rintro ⟨h1, h2⟩
        refine ⟨(x - 1).toNat, by omega, ?_⟩
        push_cast
        omega

theorem fold_oneHotGroup (p : CVRPProblem) (σ : ℕ → ℤ) (s : ℕ) (L : ℕ)
    (hloc : p.location_idx = natCastRange L)
    (h1 : 1 ≤ σ s) (h2 : σ s < (L : ℤ)) (st : DecodeState) :
    (oneHotGroup p s σ).foldl (decodeStep p) st
      = decodeStep p st (((s : ℤ), σ s), true) := by
  have hmem : σ s ∈ natCastRange L := mem_natCastRange.mpr ⟨by omega, h2⟩
  obtain ⟨l1, l2, hsplit⟩ := List.append_of_mem hmem
  have hnd : (natCastRange L).Nodup := natCastRange_nodup L
  rw [hsplit] at hnd
  have hn1 : σ s ∉ l1 := fun hm =>
    (List.disjoint_of_nodup_append hnd) hm (List.mem_cons_self _ _)
  have hn2 : σ s ∉ l2 :=
    (List.nodup_cons.mp (List.nodup_append.mp hnd).2.1).1
  unfold oneHotGroup
  rw [hloc, hsplit, List.map_append, List.map_cons, List.foldl_append,
    fold_all_false p _ st ?_, List.foldl_cons]
  · rw [show decide (σ s = σ s) = true from by simp]
    exact fold_all_false p _ _ (by
      intro e he
      obtain ⟨d, hd, rfl⟩ := List.mem_map.mp he
      simp only [decide_eq_false_iff_not]
      intro hds
      exact hn2 (hds ▸ hd))
  · intro e he
    obtain ⟨d, hd, rfl⟩ := List.mem_map.mp he
    simp only [decide_eq_false_iff_not]
    intro hds
    exact hn1 (hds ▸ hd)

theorem fold_select_entries (p : CVRPProblem) (σ : ℕ → ℤ) (L : ℕ)
    (hloc : p.location_idx = natCastRange L) :
    ∀ (js : List ℕ), (∀ s ∈ js, 1 ≤ σ s ∧ σ s < (L : ℤ)) →
    ∀ (res : List (List ℤ)) (cur : List ℤ) (i veh : ℕ),
    i + js.length = p.max_deliveries → js ≠ [] →
    (js.flatMap (fun s => oneHotGroup p s σ)).foldl (decodeStep p)
        ⟨res, cur, i, veh, false⟩
      = ⟨res ++ [p.depot_idx :: (cur ++ js.map σ) ++ [p.depot_idx]],
          [], 0, veh + 1, decide (p.num_vehicles ≤ veh + 1)⟩ := by
  intro js
  induction js with
  | nil => intro _ _ _ _ _ _ hne; exact absurd rfl hne
  | cons s js ih =>
      intro hsel res cur i veh hlen _
      rw [List.flatMap_cons, List.foldl_append]
      obtain ⟨hs1, hs2⟩ := hsel s (List.mem_cons_self s js)
      rw [fold_oneHotGroup p σ s L hloc hs1 hs2,
        decodeStep_true_nonzero p res cur i veh _ _ (by omega)]
      cases js with
      | nil =>
          have hmd : p.max_deliveries = i + 1 := by
            simp only [List.length_cons, List.length_nil] at hlen
            omega
          rw [if_pos hmd]
          simp
      | cons s2 js2 =>
          have hmd : p.max_deliveries ≠ i + 1 := by
            simp only [List.length_cons] at hlen
            omega
          rw [if_neg hmd,
            ih (fun x hx => hsel x (List.mem_cons_of_mem s hx)) res
              (cur ++ [σ s]) (i + 1) veh
              (by simp only [List.length_cons] at hlen ⊢; omega) (by simp)]
          rw [List.append_assoc, List.singleton_append]
          rfl

theorem fold_vehicles (p : CVRPProblem) (σ : ℕ → ℤ) (L : ℕ)
    (hloc : p.location_idx = natCastRange L) (hmd : 1 ≤ p.max_deliveries)
    (hnv : 1 ≤ p.num_vehicles)
    (hσ : ∀ s, s < p.num_vehicles * p.max_deliveries →
        1 ≤ σ s ∧ σ s < (L : ℤ)) :
    ∀ v : ℕ, v ≤ p.num_vehicles →
    ((List.range v).flatMap (fun vh =>
        (List.range p.max_deliveries).flatMap (fun j =>
          oneHotGroup p (vh * p.max_deliveries + j) σ))).foldl (decodeStep p)
        ⟨[], [], 0, 0, false⟩
      = ⟨(List.range v).map (fun vh => p.depot_idx ::
            ((List.range p.max_deliveries).map (fun j =>
              σ (vh * p.max_deliveries + j))) ++ [p.depot_idx]),
          [], 0, v, decide (p.num_vehicles ≤ v)⟩ := by
  intro v
  induction v with
  | zero =>
      intro _
      simp only [List.range_zero, List.flatMap_nil, List.foldl_nil,
        List.map_nil]
      have : decide (p.num_vehicles ≤ 0) = false := by
        simp only [decide_eq_false_iff_not]
        omega
      rw [this]
  | succ v ih =>
      intro hv
      rw [List.range_succ, List.flatMap_append, List.foldl_append,
        ih (by omega)]
      have hdv : decide (p.num_vehicles ≤ v) = false := by
        simp only [decide_eq_false_iff_not]
        omega
      rw [hdv, List.flatMap_cons, List.flatMap_nil, List.append_nil]
      have hjs : (List.range p.max_deliveries).flatMap
            (fun j => oneHotGroup p (v * p.max_deliveries + j) σ)
          = ((List.range p.max_deliveries).map
              (fun j => v * p.max_deliveries + j)).flatMap
              (fun s => oneHotGroup p s σ) := by
        rw [List.flatMap_map]
      rw [hjs, fold_select_entries p σ L hloc _ ?_ _ [] 0 v ?_ ?_]
      · rw [List.map_append, List.map_cons, List.map_nil, List.map_map,
          List.nil_append]
        rfl
      · intro s hs
        obtain ⟨j, hj, rfl⟩ := List.mem_map.mp hs
        rw [List.mem_range] at hj
        refine hσ _ ?_
        calc v * p.max_deliveries + j < (v + 1) * p.max_deliveries := by
              rw [Nat.succ_mul]
              omega
          _ ≤ p.num_vehicles * p.max_deliveries :=
              Nat.mul_le_mul_right _ hv
      · simp
      · intro h
        rw [List.map_eq_nil_iff, List.range_eq_nil] at h
        omega

/-- C4 (amended): decoding a hand-constructed perfect bit assignment — one
destination selected per step in increasing step order, each non-depot
destination selected exactly once, blocks sized `max_deliveries` — in which,
additionally, every step selects a non-depot destination, yields exactly
`num_vehicles` routes, each of length `max_deliveries + 2` and each beginning
and ending at `depot_idx`.  (Without the extra condition a step that selects
the depot still advances the step counter but adds no interior stop, so its
route is shorter than `max_deliveries + 2` — see the counterexample.) -/
theorem claim_C4_amended (p : CVRPProblem) (σ : ℕ → ℤ) (L : ℕ)
    (hloc : p.location_idx = natCastRange L)
    (h0 : p.depot_idx = 0)
    (hmd : 1 ≤ p.max_deliveries)
    (hsel : ∀ s, s < p.num_vehicles * p.max_deliveries →
        σ s ∈ p.location_idx.drop 1)
    (hinj : ∀ s1, s1 < p.num_vehicles * p.max_deliveries →
        ∀ s2, s2 < p.num_vehicles * p.max_deliveries → σ s1 = σ s2 → s1 = s2)
    (hall : ∀ d ∈ p.location_idx.drop 1,
        d ∈ (List.range (p.num_vehicles * p.max_deliveries)).map σ) :
    (unwrap_qbsolv_solution p (perfectSample p σ)).routes.length
        = p.num_vehicles
    ∧ ∀ r ∈ (unwrap_qbsolv_solution p (perfectSample p σ)).routes,
        r.length = p.max_deliveries + 2
        ∧ r.head? = some p.depot_idx ∧ r.getLast? = some p.depot_idx := by
  have hσ : ∀ s, s < p.num_vehicles * p.max_deliveries →
      1 ≤ σ s ∧ σ s < (L : ℤ) := by
    intro s hs
    have := hsel s hs
    rw [hloc] at this
    exact mem_natCastRange_drop1.mp this
  by_cases hnv : 1 ≤ p.num_vehicles
  · have hfold := fold_vehicles p σ L hloc hmd hnv hσ p.num_vehicles
      (le_refl _)
    have hroutes : (unwrap_qbsolv_solution p (perfectSample p σ)).routes
        = (List.range p.num_vehicles).map (fun vh => p.depot_idx ::
            ((List.range p.max_deliveries).map (fun j =>
              σ (vh * p.max_deliveries + j))) ++ [p.depot_idx]) := by
      show (decodeRoutes p (perfectSample p σ)).all_vehicles_results = _
      unfold decodeRoutes perfectSample
      rw [hfold]
    rw [hroutes]
    constructor
    · simp
    · intro r hr
      obtain ⟨vh, -, rfl⟩ := List.mem_map.mp hr
      refine ⟨?_, rfl, ?_⟩
      · simp only [List.length_cons, List.length_append, List.length_map,
          List.length_range, List.length_singleton, List.length_nil]
      · exact List.getLast?_concat _
  · have hnv0 : p.num_vehicles = 0 := by omega
    have hempty : perfectSample p σ = [] := by
      unfold perfectSample
      rw [hnv0]
      rfl
    have hroutes : (unwrap_qbsolv_solution p (perfectSample p σ)).routes = [] := by
      show (decodeRoutes p (perfectSample p σ)).all_vehicles_results = _
      rw [hempty]
      rfl
    rw [hroutes, hnv0]
    exact ⟨rfl, fun r hr => absurd hr (List.not_mem_nil r)⟩

/-- C4 witness: the amended round-trip instantiated at `witProblem`
(`L = 3`, one vehicle, `max_deliveries = 2 = L - 1`) with the perfect
assignment `sigmaWit` that visits destination `s + 1` at step `s`. -/
theorem claim_C4_amended_witness :
    (unwrap_qbsolv_solution witProblem
        (perfectSample witProblem sigmaWit)).routes.length
        = witProblem.num_vehicles
    ∧ ∀ r ∈ (unwrap_qbsolv_solution witProblem
        (perfectSample witProblem sigmaWit)).routes,
        r.length = witProblem.max_deliveries + 2
        ∧ r.head? = some witProblem.depot_idx
        ∧ r.getLast? = some witProblem.depot_idx :=
  claim_C4_amended witProblem sigmaWit 3 (by decide) (by decide) (by decide)
    (by decide) (by decide) (by decide)

theorem contribSum_map_general {α : Type} (l : List α) (g : α → QKey × ℚ)
    (k : QKey) :
    contribSum (l.map g) k
      = (l.map (fun x => if (g x).1 = k then (g x).2 else 0)).sum := by
  unfold contribSum
  rw [List.map_map]
  rfl

theorem sum_range_indicator (steps : ℕ) (a : ℤ) (C : Prop) [Decidable C]
    (val : ℚ) :
    ((List.range steps).map
        (fun st : ℕ => if C ∧ (st : ℤ) = a then val else 0)).sum
      = if C ∧ (0 ≤ a ∧ a < (steps : ℤ)) then val else 0 := by
  rw [mapSum_ite_and _ C (fun st : ℕ => (st : ℤ) = a),
    show ((List.range steps).map
        (fun st : ℕ => if (st : ℤ) = a then val else 0)).sum
      = ((List.range steps).map
        (fun st : ℕ => if (st : ℤ) = a then (fun _ : ℤ => val) (st : ℤ) else 0)).sum
      from rfl,
    sum_range_cast_ite steps a (fun _ => val), ite_ite_and]

theorem sum_natCast_indicator (L : ℕ) (a : ℤ) (C : Prop) [Decidable C]
    (f : ℤ → ℚ) :
    ((natCastRange L).map (fun x => if C ∧ x = a then f x else 0)).sum
      = if C ∧ isDest L a then f a else 0 := by
  rw [mapSum_ite_and _ C (fun x => x = a), sum_natCastRange_ite, ite_ite_and]

theorem sum_intRange_indicator (lo hi a : ℤ) (C : Prop) [Decidable C]
    (f : ℤ → ℚ) :
    ((intRange lo hi).map (fun x => if C ∧ x = a then f x else 0)).sum
      = if C ∧ (lo ≤ a ∧ a < hi) then f a else 0 := by
  rw [mapSum_ite_and _ C (fun x => x = a), sum_intRange_ite, ite_ite_and]

theorem natCastRange_drop1_eq_filter (L : ℕ) :
    (natCastRange L).drop 1 = (natCastRange L).filter (fun d => d ≠ 0) := by
  cases L with
  | zero => rfl
  | succ m =>
      have hrep : natCastRange (m + 1)
          = (0 : ℤ) :: (List.range m).map (fun j : ℕ => ((j + 1 : ℕ) : ℤ)) := by
        unfold natCastRange
        rw [List.range_succ_eq_map, List.map_cons, List.map_map]
        rfl
      rw [hrep]
      rw [show ((0 : ℤ) :: (List.range m).map
          (fun j : ℕ => ((j + 1 : ℕ) : ℤ))).drop 1
        = (List.range m).map (fun j : ℕ => ((j + 1 : ℕ) : ℤ)) from rfl]
      rw [List.filter_cons_of_neg (by simp)]
      rw [List.filter_eq_self.mpr]
      intro x hx
      obtain ⟨j, -, rfl⟩ := List.mem_map.mp hx
      simp only [ne_eq, decide_not, Bool.not_eq_eq_eq_not, Bool.not_true,
        decide_eq_false_iff_not]
      push_cast
      omega

theorem mapSum_congr_to {α : Type} (l : List α) (f g : α → ℚ)
    (h : ∀ x ∈ l, f x = g x) : (l.map f).sum = (l.map g).sum :=
  congrArg List.sum (List.map_congr_left h)

theorem destChunk_eval (steps : ℕ) (dd : ℤ) (A : ℚ) (k : QKey) :
    contribSum
      ((((List.range steps).map (fun st : ℕ => ((st : ℤ), dd))).map
          (fun var => ((var, var), -(2 * A))))
        ++ (((List.range steps).map (fun st : ℕ => ((st : ℤ), dd))).flatMap
            (fun v1 =>
              ((List.range steps).map (fun st : ℕ => ((st : ℤ), dd))).map
                (fun v2 => ((v1, v2), A))))) k
      = destFamilyTerm steps dd A k := by
  obtain ⟨⟨a, b⟩, c, d⟩ := k
  rw [contribSum_append]
  have h1 : contribSum
      (((List.range steps).map (fun st : ℕ => ((st : ℤ), dd))).map
        (fun var => ((var, var), -(2 * A)))) ((a, b), c, d)
      = if ((c, d) = (a, b) ∧ b = dd) ∧ (0 ≤ a ∧ a < (steps : ℤ))
          then -(2 * A) else 0 := by
    rw [List.map_map, contribSum_map_general]
    refine (mapSum_congr_to _ _
      (fun st : ℕ => if ((c, d) = (a, b) ∧ b = dd) ∧ (st : ℤ) = a
        then -(2 * A) else 0) ?_).trans
      (sum_range_indicator steps a _ (-(2 * A)))
    intro st _
    show (if (((st : ℤ), dd), ((st : ℤ), dd)) = ((a, b), c, d)
      then -(2 * A) else 0) = _
    refine if_congr ?_ rfl rfl
    simp only [Prod.mk.injEq]
    omega
  have h2 : contribSum
      (((List.range steps).map (fun st : ℕ => ((st : ℤ), dd))).flatMap
        (fun v1 =>
          ((List.range steps).map (fun st : ℕ => ((st : ℤ), dd))).map
            (fun v2 => ((v1, v2), A)))) ((a, b), c, d)
      = if ((b = dd ∧ d = dd) ∧ (0 ≤ c ∧ c < (steps : ℤ)))
            ∧ (0 ≤ a ∧ a < (steps : ℤ))
          then A else 0 := by
    rw [contribSum_flatMap, List.map_map]
    refine (mapSum_congr_to _ _
      (fun s1 : ℕ => if ((b = dd ∧ d = dd) ∧ (0 ≤ c ∧ c < (steps : ℤ)))
          ∧ (s1 : ℤ) = a then A else 0) ?_).trans
      (sum_range_indicator steps a _ A)
    intro s1 _
    show contribSum
        (((List.range steps).map (fun st : ℕ => ((st : ℤ), dd))).map
          (fun v2 => (((((s1 : ℤ), dd)), v2), A))) ((a, b), c, d) = _
    rw [List.map_map, contribSum_map_general]
    refine (mapSum_congr_to _ _
      (fun s2 : ℕ => if (((s1 : ℤ) = a ∧ b = dd ∧ d = dd) ∧ (s2 : ℤ) = c)
        then A else 0) ?_).trans ?_
    · intro s2 _
      show (if (((s1 : ℤ), dd), ((s2 : ℤ), dd)) = ((a, b), c, d)
        then A else 0) = _
      refine if_congr ?_ rfl rfl
      simp only [Prod.mk.injEq]
      omega
    · rw [sum_range_indicator steps c _ A]
      refine if_congr ?_ rfl rfl
      omega
  rw [h1, h2]
  unfold destFamilyTerm
  congr 1
  · refine if_congr ?_ rfl rfl
    simp only [Prod.mk.injEq]
    omega
  · refine if_congr ?_ rfl rfl
    simp only [Prod.mk.injEq]
    omega

theorem stepChunk_eval (L : ℕ) (st : ℕ) (A : ℚ) (k : QKey) :
    contribSum
      ((((natCastRange L).map (fun dest => (((st : ℤ)), dest))).map
          (fun var => ((var, var), -(2 * A))))
        ++ (((natCastRange L).map (fun dest => (((st : ℤ)), dest))).flatMap
            (fun v1 =>
              ((natCastRange L).map (fun dest => (((st : ℤ)), dest))).map
                (fun v2 => ((v1, v2), A))))) k
      = stepFamilyTerm L ((st : ℤ)) A k := by
  obtain ⟨⟨a, b⟩, c, d⟩ := k
  rw [contribSum_append]
  have h1 : contribSum
      (((natCastRange L).map (fun dest => (((st : ℤ)), dest))).map
        (fun var => ((var, var), -(2 * A)))) ((a, b), c, d)
      = if (((st : ℤ) = a ∧ (st : ℤ) = c ∧ d = b) ∧ isDest L b)
          then -(2 * A) else 0 := by
    rw [List.map_map, contribSum_map_general]
    refine (mapSum_congr_to _ _
      (fun dest : ℤ => if ((st : ℤ) = a ∧ (st : ℤ) = c ∧ d = b) ∧ dest = b
        then -(2 * A) else 0) ?_).trans
      (sum_natCast_indicator L b _ (fun _ => -(2 * A)))
    intro dest _
    show (if (((st : ℤ), dest), ((st : ℤ), dest)) = ((a, b), c, d)
      then -(2 * A) else 0) = _
    refine if_congr ?_ rfl rfl
    simp only [Prod.mk.injEq]
    omega
  have h2 : contribSum
      (((natCastRange L).map (fun dest => (((st : ℤ)), dest))).flatMap
        (fun v1 =>
          ((natCastRange L).map (fun dest => (((st : ℤ)), dest))).map
            (fun v2 => ((v1, v2), A)))) ((a, b), c, d)
      = if (((st : ℤ) = a ∧ (st : ℤ) = c ∧ isDest L d) ∧ isDest L b)
          then A else 0 := by
    rw [contribSum_flatMap, List.map_map]
    refine (mapSum_congr_to _ _
      (fun d1 : ℤ => if ((st : ℤ) = a ∧ (st : ℤ) = c ∧ isDest L d) ∧ d1 = b
        then A else 0) ?_).trans
      (sum_natCast_indicator L b _ (fun _ => A))
    intro d1 _
    show contribSum
        (((natCastRange L).map (fun dest => (((st : ℤ)), dest))).map
          (fun v2 => (((((st : ℤ), d1)), v2), A))) ((a, b), c, d) = _
    rw [List.map_map, contribSum_map_general]
    refine (mapSum_congr_to _ _
      (fun d2 : ℤ => if (((st : ℤ) = a ∧ d1 = b ∧ (st : ℤ) = c) ∧ d2 = d)
        then A else 0) ?_).trans ?_
    · intro d2 _
      show (if (((st : ℤ), d1), ((st : ℤ), d2)) = ((a, b), c, d)
        then A else 0) = _
      refine if_congr ?_ rfl rfl
      simp only [Prod.mk.injEq]
      omega
    · rw [sum_natCast_indicator L d _ (fun _ => A)]
      refine if_congr ?_ rfl rfl
      unfold isDest
      omega
  rw [h1, h2]
  unfold stepFamilyTerm
  congr 1
  · refine if_congr ?_ rfl rfl
    simp only [Prod.mk.injEq]
    unfold isDest
    omega
  · refine if_congr ?_ rfl rfl
    simp only [Prod.mk.injEq]
    unfold isDest
    omega

/-- C7: for every canonical problem the constraint encoder's coefficient at
every key is exactly the sum of the two one-hot penalty families scaled by
`constraint_const`: one family per non-depot destination over all
`num_vehicles * max_deliveries` steps, and one family per step over all
destinations including the depot; overlapping entries accumulate
additively. -/
theorem claim_C7_constraints (p : CVRPProblem) (A : ℚ) (L : ℕ)
    (hloc : p.location_idx = natCastRange L) (hdepot : p.depot_idx = 0)
    (k : QKey) :
    (constraints p A).getD k = constraintsSpec p A L k := by
  unfold constraints
  rw [QMap.getD_addAll, QMap.getD_empty, zero_add]
  simp only [constraintsContribs, constraintsSpec, hloc, hdepot]
  rw [← natCastRange_drop1_eq_filter, contribSum_append, contribSum_flatMap,
    contribSum_flatMap]
  congr 1
  · refine mapSum_congr_to _ _ _ ?_
    intro dest _
    exact destChunk_eval (p.num_vehicles * p.max_deliveries) dest A k
  · refine mapSum_congr_to _ _ _ ?_
    intro st _
    exact stepChunk_eval L st A k

/-- C7 witness: the constraint characterization instantiated at `witProblem`
and the diagonal key of variable `(0, 1)` (whose combined coefficient is
`-2A + A + A = 0` scaled contributions from both families). -/
theorem claim_C7_constraints_witness :
    (constraints witProblem 7).getD (((0, 1), (0, 1)))
      = constraintsSpec witProblem 7 3 (((0, 1), (0, 1))) :=
  claim_C7_constraints witProblem 7 3 (by decide) (by decide) (((0, 1), (0, 1)))

theorem vrpChunk_eval (distances : ℤ → ℤ → ℚ) (p : CVRPProblem) (cc : ℚ)
    (start : ℤ) (L : ℕ) (hloc : p.location_idx = natCastRange L) (k : QKey) :
    contribSum (vrpVehicleContribs distances p cc start) k
      = vrpBlockSpec distances p.depot_idx cc L start (start + (L : ℤ) - 2) k := by
  obtain ⟨⟨a, b⟩, c, d⟩ := k
  have hlen : ((p.location_idx.length : ℤ)) = (L : ℤ) := by
    rw [hloc, natCastRange_length]
  simp only [vrpVehicleContribs, hloc, natCastRange_length]
  rw [show start - 1 + 1 = start from by ring]
  rw [contribSum_append]
  have hadj : contribSum
      ((intRange start (start + (L : ℤ) - 2)).flatMap (fun step =>
        (natCastRange L).flatMap (fun node1 =>
          (natCastRange L).map (fun node2 =>
            (((step, node1), (step + 1, node2)),
              distances node1 node2 * cc))))) ((a, b), c, d)
      = if ((c = a + 1 ∧ isDest L d ∧ isDest L b)
            ∧ (start ≤ a ∧ a < start + (L : ℤ) - 2))
          then distances b d * cc else 0 := by
    rw [contribSum_flatMap]
    refine (mapSum_congr_to _ _
      (fun step : ℤ => if ((c = a + 1 ∧ isDest L d ∧ isDest L b) ∧ step = a)
        then distances b d * cc else 0) ?_).trans
      (sum_intRange_indicator start (start + (L : ℤ) - 2) a _
        (fun _ => distances b d * cc))
    intro step _
    rw [contribSum_flatMap]
    refine (mapSum_congr_to _ _
      (fun n1 : ℤ => if ((step = a ∧ step + 1 = c ∧ isDest L d) ∧ n1 = b)
        then distances n1 d * cc else 0) ?_).trans ?_
    · intro n1 _
      rw [contribSum_map_general]
      refine (mapSum_congr_to _ _
        (fun n2 : ℤ => if ((step = a ∧ n1 = b ∧ step + 1 = c) ∧ n2 = d)
          then distances n1 n2 * cc else 0) ?_).trans ?_
      · intro n2 _
        show (if ((step, n1), (step + 1, n2)) = ((a, b), c, d)
          then distances n1 n2 * cc else 0) = _
        refine if_congr ?_ rfl rfl
        simp only [Prod.mk.injEq]
        omega
      · rw [sum_natCast_indicator L d _ (fun n2 => distances n1 n2 * cc)]
        refine if_congr ?_ rfl rfl
        unfold isDest
        omega
    · rw [sum_natCast_indicator L b _ (fun n1 => distances n1 d * cc)]
      refine if_congr ?_ rfl rfl
      unfold isDest
      omega
  have hbnd : contribSum
      ((natCastRange L).flatMap (fun destination =>
        [(((start, destination), (start, destination)),
            distances p.depot_idx destination * cc),
          (((start + (L : ℤ) - 2, destination), (start + (L : ℤ) - 2, destination)),
            cc * distances destination p.depot_idx)])) ((a, b), c, d)
      = (if (((c, d) = (a, b) ∧ a = start) ∧ isDest L b)
          then distances p.depot_idx b * cc else 0)
        + (if (((c, d) = (a, b) ∧ a = start + (L : ℤ) - 2) ∧ isDest L b)
          then distances b p.depot_idx * cc else 0) := by
    rw [contribSum_flatMap]
    refine (mapSum_congr_to _ _
      (fun dest : ℤ =>
        (if (((c, d) = (a, b) ∧ a = start) ∧ dest = b)
          then distances p.depot_idx dest * cc else 0)
        + (if (((c, d) = (a, b) ∧ a = start + (L : ℤ) - 2) ∧ dest = b)
          then distances dest p.depot_idx * cc else 0)) ?_).trans ?_
    · intro dest _
      rw [contribSum_cons, contribSum_cons, contribSum_nil, add_zero]
      refine congrArg₂ HAdd.hAdd ?_ ?_
      · show (if ((start, dest), start, dest) = ((a, b), c, d)
          then distances p.depot_idx dest * cc else 0) = _
        refine if_congr ?_ rfl rfl
        simp only [Prod.mk.injEq]
        omega
      · show (if ((start + (L : ℤ) - 2, dest), start + (L : ℤ) - 2, dest)
            = ((a, b), c, d) then cc * distances dest p.depot_idx else 0) = _
        refine if_congr ?_ (mul_comm _ _) rfl
        simp only [Prod.mk.injEq]
        omega
    · rw [mapSum_add,
        sum_natCast_indicator L b _ (fun dest => distances p.depot_idx dest * cc),
        sum_natCast_indicator L b _ (fun dest => distances dest p.depot_idx * cc)]
  rw [hadj, hbnd]
  unfold vrpBlockSpec
  rw [← add_assoc]
  refine congrArg₂ HAdd.hAdd (congrArg₂ HAdd.hAdd ?_ ?_) ?_
  · refine if_congr ?_ rfl rfl
    dsimp only
    unfold isDest
    omega
  · refine if_congr ?_ rfl rfl
    dsimp only
    simp only [Prod.mk.injEq]
    unfold isDest
    omega
  · refine if_congr ?_ rfl rfl
    dsimp only
    simp only [Prod.mk.injEq]
    unfold isDest
    omega

/-- Helper: the vrp objective coefficient function equals the per-block spec
formula with the code's blocks of size `L - 1`. -/
theorem vrp_getD_eval (distances : ℤ → ℤ → ℚ) (p : CVRPProblem) (cc : ℚ)
    (L : ℕ) (hloc : p.location_idx = natCastRange L) (k : QKey) :
    (vrp_objective_function distances p cc).getD k
      = vrpObjectiveSpecLen distances p cc L k := by
  unfold vrp_objective_function
  rw [QMap.getD_addAll, QMap.getD_empty, zero_add]
  unfold vrpContribs vrpObjectiveSpecLen
  rw [contribSum_flatMap]
  have hlen : ((p.location_idx.length : ℤ)) = (L : ℤ) := by
    rw [hloc, natCastRange_length]
  refine mapSum_congr_to _ _ _ ?_
  intro v _
  rw [hlen, vrpChunk_eval distances p cc _ L hloc]

/-- C6 (amended): for every canonical problem, the vrp objective coefficient
map is exactly the claimed per-vehicle-block family — adjacent-step
transition costs, depot-ingress diagonal at the block's first step,
depot-egress diagonal at the block's last step, and nothing else — but over
the code's contiguous blocks of size `L - 1` (`L` the number of locations),
vehicle `v` owning steps `v*(L-1) … v*(L-1)+L-2`, not over blocks of size
`max_deliveries`; the two layouts coincide exactly when
`max_deliveries = L - 1`. -/
theorem claim_C6_amended (distances : ℤ → ℤ → ℚ) (p : CVRPProblem) (cc : ℚ)
    (L : ℕ) (hloc : p.location_idx = natCastRange L) (k : QKey) :
    (vrp_objective_function distances p cc).getD k
      = vrpObjectiveSpecLen distances p cc L k :=
  vrp_getD_eval distances p cc L hloc k

/-- C6 witness: the characterization instantiated at `witProblem` and the
adjacent-transition key `((0,1),(1,2))`. -/
theorem claim_C6_amended_witness :
    (vrp_objective_function witProblem.costs witProblem 1).getD
        (((0, 1), (1, 2)))
      = vrpObjectiveSpecLen witProblem.costs witProblem 1 3 (((0, 1), (1, 2))) :=
  claim_C6_amended witProblem.costs witProblem 1 3 (by decide) (((0, 1), (1, 2)))

theorem cvrpChunk_eval (p : CVRPProblem) (cc : ℚ) (start : ℤ) (L : ℕ)
    (hloc : p.location_idx = natCastRange L) (hdepot : p.depot_idx = 0)
    (k : QKey) :
    contribSum (cvrpVehicleContribs p cc start) k
      = capBlockSpec p cc L start (start + (L : ℤ) - 2) k := by
  simp only [cvrpVehicleContribs, capBlockSpec, hloc, natCastRange_length,
    hdepot]
  rw [← natCastRange_drop1_eq_filter, contribSum_flatMap]
  refine mapSum_congr_to _ _ _ ?_
  intro dd _
  rw [contribSum_flatMap]
  refine mapSum_congr_to _ _ _ ?_
  intro ss _
  rw [contribSum_cons, contribSum_cons, contribSum_nil, add_zero]
  refine congrArg₂ HAdd.hAdd ?_ ?_
  · exact if_congr eq_comm rfl rfl
  · exact if_congr eq_comm rfl rfl

/-- Helper: the cvrp objective coefficient function is the vrp coefficient
function plus the capacity penalty over the code's blocks of size `L - 1`. -/
theorem cvrp_getD_eval (distances : ℤ → ℤ → ℚ) (p : CVRPProblem) (cc : ℚ)
    (L : ℕ) (hloc : p.location_idx = natCastRange L)
    (hdepot : p.depot_idx = 0) (k : QKey) :
    (cvrp_objective_function distances p cc).getD k
      = (vrp_objective_function distances p cc).getD k
        + capPenaltyLen p cc L k := by
  unfold cvrp_objective_function
  rw [QMap.getD_addAll]
  congr 1
  unfold cvrpCapContribs capPenaltyLen
  rw [contribSum_flatMap]
  refine mapSum_congr_to _ _ _ ?_
  intro v _
  rw [hloc, natCastRange_length]
  exact cvrpChunk_eval p cc _ L hloc hdepot k

theorem capPenaltyLen_zero (p : CVRPProblem) (cc : ℚ) (L : ℕ)
    (hdepot : p.depot_idx = 0)
    (hdem : ∀ d : ℤ, 1 ≤ d → d < (L : ℤ) → p.demands d = 0) (k : QKey) :
    capPenaltyLen p cc L k = 0 := by
  unfold capPenaltyLen
  apply mapSum_zero
  intro v _
  unfold capBlockSpec
  apply mapSum_zero
  intro dd hdd
  obtain ⟨h1, -⟩ := mem_combos2 hdd
  rw [List.mem_filter] at h1
  have hd1 : p.demands dd.1 = 0 := by
    apply hdem
    · have hne : dd.1 ≠ p.depot_idx := by
        have := h1.2
        simpa using this
      have hb := mem_natCastRange.mp h1.1
      rw [hdepot] at hne
      omega
    · exact (mem_natCastRange.mp h1.1).2
  apply mapSum_zero
  intro ss _
  rw [hd1]
  simp

/-- C3 (amended): for every canonical problem, `cvrp_objective_function`
equals `vrp_objective_function` plus, for every unordered pair of distinct
non-depot destinations and every unordered pair of distinct steps within the
same vehicle block — the code's blocks of size `L - 1`, not the spec's
`max_deliveries`-sized blocks — an added `cost_const * demand[d1] *
demand[d2] / capacity²` on both cross pairs; consequently when every
non-depot demand is 0 the two coefficient maps agree at every key. -/
theorem claim_C3_amended (distances : ℤ → ℤ → ℚ) (p : CVRPProblem) (cc : ℚ)
    (L : ℕ) (hloc : p.location_idx = natCastRange L)
    (hdepot : p.depot_idx = 0) :
    (∀ k, (cvrp_objective_function distances p cc).getD k
        = (vrp_objective_function distances p cc).getD k
          + capPenaltyLen p cc L k)
    ∧ ((∀ d : ℤ, 1 ≤ d → d < (L : ℤ) → p.demands d = 0) →
        ∀ k, (cvrp_objective_function distances p cc).getD k
          = (vrp_objective_function distances p cc).getD k) := by
  refine ⟨fun k => cvrp_getD_eval distances p cc L hloc hdepot k, ?_⟩
  intro hdem k
  rw [cvrp_getD_eval distances p cc L hloc hdepot k,
    capPenaltyLen_zero p cc L hdepot hdem k, add_zero]

/-- C3 witness: the amended decomposition instantiated at `witProblem`. -/
theorem claim_C3_amended_witness :
    (∀ k, (cvrp_objective_function witProblem.costs witProblem 1).getD k
        = (vrp_objective_function witProblem.costs witProblem 1).getD k
          + capPenaltyLen witProblem 1 3 k)
    ∧ ((∀ d : ℤ, 1 ≤ d → d < ((3 : ℕ) : ℤ) → witProblem.demands d = 0) →
        ∀ k, (cvrp_objective_function witProblem.costs witProblem 1).getD k
          = (vrp_objective_function witProblem.costs witProblem 1).getD k) :=
  claim_C3_amended witProblem.costs witProblem 1 3 (by decide) (by decide)

/-- C3 counterexample: on `cexProblemA` (`max_deliveries = 1`, three
locations, unit demands, capacity 1) every spec-sized vehicle block has no
pair of distinct steps, so the capacity penalty over
`max_deliveries`-sized blocks is zero at every key; yet the code adds `1` to
the coefficient of the cross pair `((0,1),(1,2))`, so the claimed equation
fails there. -/
theorem claim_C3_counterexample :
    ¬ ((cvrp_objective_function zeroDist cexProblemA 1).getD (((0, 1), (1, 2)))
        = (vrp_objective_function zeroDist cexProblemA 1).getD (((0, 1), (1, 2)))
          + capPenaltyMd cexProblemA 1 3 (((0, 1), (1, 2)))) := by
  rw [cvrp_getD_eval zeroDist cexProblemA 1 3 (by decide) (by decide)]
  intro h
  have h2 := add_left_cancel h
  have hLen : capPenaltyLen cexProblemA 1 3 (((0, 1), (1, 2))) = 1 := by
    simp only [capPenaltyLen, capBlockSpec, cexProblemA]
    rw [show List.range 1 = [0] from rfl]
    simp only [List.map_cons, List.map_nil, List.sum_cons, List.sum_nil,
      add_zero]
    norm_num
    rw [show List.filter (fun d : ℤ => !decide (d = 0)) (natCastRange 3)
        = [1, 2] from by decide,
      show intRange 0 2 = [0, 1] from by decide,
      show combos2 ([1, 2] : List ℤ) = [(1, 2)] from by decide,
      show combos2 ([0, 1] : List ℤ) = [(0, 1)] from by decide]
    norm_num [Prod.mk.injEq]
  have hMd : capPenaltyMd cexProblemA 1 3 (((0, 1), (1, 2))) = 0 := by
    simp only [capPenaltyMd, capBlockSpec, cexProblemA]
    rw [show List.range 1 = [0] from rfl]
    simp only [List.map_cons, List.map_nil, List.sum_cons, List.sum_nil,
      add_zero]
    norm_num
    rw [show intRange 0 1 = [0] from by decide,
      show combos2 ([0] : List ℤ) = ([] : List (ℤ × ℤ)) from rfl]
    norm_num
  rw [hLen, hMd] at h2
  exact one_ne_zero h2

/-- C6 counterexample: on `cexProblemB` (three locations, two vehicles,
`max_deliveries = 1`) the code's objective map has coefficient `1` on the
diagonal key `((2,1),(2,1))` — the depot-ingress term of the second code
block, which starts at step `2 = L - 1` — while the claim's per-vehicle
blocks of size `max_deliveries` put no coefficient there. -/
theorem claim_C6_counterexample :
    ¬ ((vrp_objective_function oneDist cexProblemB 1).getD (((2, 1), (2, 1)))
        = vrpObjectiveSpecMd oneDist cexProblemB 1 3 (((2, 1), (2, 1)))) := by
  rw [vrp_getD_eval oneDist cexProblemB 1 3 (by decide)]
  have hLen : vrpObjectiveSpecLen oneDist cexProblemB 1 3 (((2, 1), (2, 1)))
      = 1 := by
    simp only [vrpObjectiveSpecLen, vrpBlockSpec, isDest, cexProblemB,
      cexProblemA, oneDist]
    rw [show List.range 2 = [0, 1] from rfl]
    simp only [List.map_cons, List.map_nil, List.sum_cons, List.sum_nil,
      add_zero, Prod.mk.injEq]
    norm_num
  have hMd : vrpObjectiveSpecMd oneDist cexProblemB 1 3 (((2, 1), (2, 1)))
      = 0 := by
    simp only [vrpObjectiveSpecMd, vrpBlockSpec, isDest, cexProblemB,
      cexProblemA, oneDist]
    rw [show List.range 2 = [0, 1] from rfl]
    simp only [List.map_cons, List.map_nil, List.sum_cons, List.sum_nil,
      add_zero, Prod.mk.injEq]
    norm_num
  rw [hLen, hMd]
  exact one_ne_zero

theorem vrpChunk_key_bounds (distances : ℤ → ℤ → ℚ) (p : CVRPProblem)
    (cc : ℚ) (start : ℤ) (L : ℕ)
    (hloc : p.location_idx = natCastRange L) (hL : 2 ≤ L)
    (kv : QKey × ℚ) (hkv : kv ∈ vrpVehicleContribs distances p cc start) :
    (start ≤ kv.1.1.1 ∧ kv.1.1.1 ≤ start + (L : ℤ) - 2)
    ∧ (start ≤ kv.1.2.1 ∧ kv.1.2.1 ≤ start + (L : ℤ) - 2) := by
  simp only [vrpVehicleContribs, hloc, natCastRange_length] at hkv
  rw [show start - 1 + 1 = start from by ring] at hkv
  rw [List.mem_append] at hkv
  rcases hkv with hkv | hkv
  · simp only [List.mem_flatMap, List.mem_map] at hkv
    obtain ⟨step, hstep, n1, -, n2, -, rfl⟩ := hkv
    rw [mem_intRange] at hstep
    constructor
    · constructor <;> simp only [] <;> omega
    · constructor <;> simp only [] <;> omega
  · simp only [List.mem_flatMap, List.mem_cons, List.mem_singleton,
      List.not_mem_nil, or_false] at hkv
    obtain ⟨dest, -, hkv | hkv⟩ := hkv <;> subst hkv
    · constructor
      · constructor <;> simp only [] <;> omega
      · constructor <;> simp only [] <;> omega
    · constructor
      · constructor <;> simp only [] <;> omega
      · constructor <;> simp only [] <;> omega

theorem cvrpChunk_key_bounds (p : CVRPProblem) (cc : ℚ) (start : ℤ) (L : ℕ)
    (hloc : p.location_idx = natCastRange L) (hL : 2 ≤ L)
    (kv : QKey × ℚ) (hkv : kv ∈ cvrpVehicleContribs p cc start) :
    (start ≤ kv.1.1.1 ∧ kv.1.1.1 ≤ start + (L : ℤ) - 2)
    ∧ (start ≤ kv.1.2.1 ∧ kv.1.2.1 ≤ start + (L : ℤ) - 2) := by
  simp only [cvrpVehicleContribs, hloc, natCastRange_length] at hkv
  simp only [List.mem_flatMap, List.mem_cons, List.mem_singleton,
    List.not_mem_nil, or_false] at hkv
  obtain ⟨dd, -, ss, hss, hkv | hkv⟩ := hkv <;> subst hkv <;>
    obtain ⟨hs1, hs2⟩ := mem_combos2 hss <;>
    rw [mem_intRange] at hs1 hs2
  · constructor
    · constructor <;> simp only [] <;> omega
    · constructor <;> simp only [] <;> omega
  · constructor
    · constructor <;> simp only [] <;> omega
    · constructor <;> simp only [] <;> omega

/-- C1 (amended): the constraint encoder's index space has exactly
`num_vehicles * max_deliveries` steps, but the objective encoders use
`num_vehicles * (L - 1)` steps (`L` the number of locations), partitioned
into contiguous per-vehicle blocks of size `L - 1` in increasing order; every
step component of every key of the objective coefficient maps lies in
`{0, …, num_vehicles*(L-1) - 1}`, and every step component of every
constraint key lies in `{0, …, num_vehicles*max_deliveries - 1}`.  The two
index spaces coincide exactly when `max_deliveries = L - 1`. -/
theorem claim_C1_amended (distances : ℤ → ℤ → ℚ) (p : CVRPProblem)
    (cc A : ℚ) (L : ℕ) (hloc : p.location_idx = natCastRange L) (hL : 2 ≤ L) :
    (∀ k ∈ (vrp_objective_function distances p cc).keys,
        (0 ≤ k.1.1 ∧ k.1.1 < (p.num_vehicles : ℤ) * ((L : ℤ) - 1))
        ∧ (0 ≤ k.2.1 ∧ k.2.1 < (p.num_vehicles : ℤ) * ((L : ℤ) - 1)))
    ∧ (∀ k ∈ (cvrp_objective_function distances p cc).keys,
        (0 ≤ k.1.1 ∧ k.1.1 < (p.num_vehicles : ℤ) * ((L : ℤ) - 1))
        ∧ (0 ≤ k.2.1 ∧ k.2.1 < (p.num_vehicles : ℤ) * ((L : ℤ) - 1)))
    ∧ (∀ k ∈ (constraints p A).keys,
        (0 ≤ k.1.1 ∧ k.1.1 < ((p.num_vehicles * p.max_deliveries : ℕ) : ℤ))
        ∧ (0 ≤ k.2.1 ∧ k.2.1 < ((p.num_vehicles * p.max_deliveries : ℕ) : ℤ))) := by
  have hblock : ∀ v : ℕ, v < p.num_vehicles → ∀ kv : QKey × ℚ,
      kv ∈ vrpVehicleContribs distances p cc ((v : ℤ) * ((L : ℤ) - 1)) ∨
      kv ∈ cvrpVehicleContribs p cc ((v : ℤ) * ((L : ℤ) - 1)) →
      (0 ≤ kv.1.1.1 ∧ kv.1.1.1 < (p.num_vehicles : ℤ) * ((L : ℤ) - 1))
      ∧ (0 ≤ kv.1.2.1 ∧ kv.1.2.1 < (p.num_vehicles : ℤ) * ((L : ℤ) - 1)) := by
    intro v hv kv hkv
    have hb : ((v : ℤ) * ((L : ℤ) - 1) ≤ kv.1.1.1
          ∧ kv.1.1.1 ≤ (v : ℤ) * ((L : ℤ) - 1) + (L : ℤ) - 2)
        ∧ ((v : ℤ) * ((L : ℤ) - 1) ≤ kv.1.2.1
          ∧ kv.1.2.1 ≤ (v : ℤ) * ((L : ℤ) - 1) + (L : ℤ) - 2) := by
      rcases hkv with hkv | hkv
      · exact vrpChunk_key_bounds distances p cc _ L hloc hL kv hkv
      · exact cvrpChunk_key_bounds p cc _ L hloc hL kv hkv
    have hvpos : (0 : ℤ) ≤ (v : ℤ) * ((L : ℤ) - 1) := by
      apply mul_nonneg
      · exact_mod_cast Nat.zero_le v
      · omega
    have hmul : ((v : ℤ) + 1) * ((L : ℤ) - 1)
        ≤ (p.num_vehicles : ℤ) * ((L : ℤ) - 1) := by
      apply mul_le_mul_of_nonneg_right
      · exact_mod_cast Nat.succ_le_of_lt hv
      · omega
    have hexp : ((v : ℤ) + 1) * ((L : ℤ) - 1)
        = (v : ℤ) * ((L : ℤ) - 1) + ((L : ℤ) - 1) := by ring
    constructor
    · constructor
      · linarith [hb.1.1]
      · linarith [hb.1.2]
    · constructor
      · linarith [hb.2.1]
      · linarith [hb.2.2]
  refine ⟨?_, ?_, ?_⟩
  · intro k hk
    rw [show (vrp_objective_function distances p cc)
        = QMap.addAll QMap.empty (vrpContribs distances p cc) from rfl,
      QMap.mem_keys_addAll] at hk
    rcases hk with hk | hk
    · cases hk
    · simp only [List.mem_map] at hk
      obtain ⟨kv, hkv, rfl⟩ := hk
      simp only [vrpContribs, hloc, natCastRange_length, List.mem_flatMap,
        List.mem_range] at hkv
      obtain ⟨v, hv, hkv⟩ := hkv
      exact hblock v hv kv (Or.inl hkv)
  · intro k hk
    rw [show (cvrp_objective_function distances p cc)
        = QMap.addAll (vrp_objective_function distances p cc)
            (cvrpCapContribs p cc) from rfl,
      QMap.mem_keys_addAll] at hk
    rcases hk with hk | hk
    · rw [show (vrp_objective_function distances p cc)
          = QMap.addAll QMap.empty (vrpContribs distances p cc) from rfl,
        QMap.mem_keys_addAll] at hk
      rcases hk with hk | hk
      · cases hk
      · simp only [List.mem_map] at hk
        obtain ⟨kv, hkv, rfl⟩ := hk
        simp only [vrpContribs, hloc, natCastRange_length, List.mem_flatMap,
          List.mem_range] at hkv
        obtain ⟨v, hv, hkv⟩ := hkv
        exact hblock v hv kv (Or.inl hkv)
    · simp only [List.mem_map] at hk
      obtain ⟨kv, hkv, rfl⟩ := hk
      simp only [cvrpCapContribs, hloc, natCastRange_length, List.mem_flatMap,
        List.mem_range] at hkv
      obtain ⟨v, hv, hkv⟩ := hkv
      exact hblock v hv kv (Or.inr hkv)
  · intro k hk
    rw [show (constraints p A)
        = QMap.addAll QMap.empty (constraintsContribs p A) from rfl,
      QMap.mem_keys_addAll] at hk
    rcases hk with hk | hk
    · cases hk
    · simp only [List.mem_map] at hk
      obtain ⟨kv, hkv, rfl⟩ := hk
      simp only [constraintsContribs] at hkv
      rcases List.mem_append.mp hkv with hkv | hkv
      · obtain ⟨dest, -, hkv⟩ := List.mem_flatMap.mp hkv
        rcases List.mem_append.mp hkv with hkv | hkv
        · obtain ⟨var, hvar, hkveq⟩ := List.mem_map.mp hkv
          obtain ⟨st, hst, hvareq⟩ := List.mem_map.mp hvar
          rw [List.mem_range] at hst
          subst hkveq
          subst hvareq
          refine ⟨⟨?_, ?_⟩, ?_, ?_⟩ <;> simp only [] <;> push_cast <;> omega
        · obtain ⟨v1, hv1, hkv⟩ := List.mem_flatMap.mp hkv
          obtain ⟨v2, hv2, hkveq⟩ := List.mem_map.mp hkv
          obtain ⟨s1, hs1, hv1eq⟩ := List.mem_map.mp hv1
          obtain ⟨s2, hs2, hv2eq⟩ := List.mem_map.mp hv2
          rw [List.mem_range] at hs1 hs2
          subst hkveq
          subst hv1eq
          subst hv2eq
          refine ⟨⟨?_, ?_⟩, ?_, ?_⟩ <;> simp only [] <;> push_cast <;> omega
      · obtain ⟨st, hst, hkv⟩ := List.mem_flatMap.mp hkv
        rw [List.mem_range] at hst
        rcases List.mem_append.mp hkv with hkv | hkv
        · obtain ⟨var, hvar, hkveq⟩ := List.mem_map.mp hkv
          obtain ⟨d1, -, hvareq⟩ := List.mem_map.mp hvar
          subst hkveq
          subst hvareq
          refine ⟨⟨?_, ?_⟩, ?_, ?_⟩ <;> simp only [] <;> push_cast <;> omega
        · obtain ⟨v1, hv1, hkv⟩ := List.mem_flatMap.mp hkv
          obtain ⟨v2, hv2, hkveq⟩ := List.mem_map.mp hkv
          obtain ⟨d1, -, hv1eq⟩ := List.mem_map.mp hv1
          obtain ⟨d2, -, hv2eq⟩ := List.mem_map.mp hv2
          subst hkveq
          subst hv1eq
          subst hv2eq
          refine ⟨⟨?_, ?_⟩, ?_, ?_⟩ <;> simp only [] <;> push_cast <;> omega

/-- C1 witness: the amended index-space bounds instantiated at `witProblem`
(where `max_deliveries = L - 1 = 2`, so the two step spaces coincide). -/
theorem claim_C1_amended_witness :
    (∀ k ∈ (vrp_objective_function witProblem.costs witProblem 1).keys,
        (0 ≤ k.1.1 ∧ k.1.1 < (witProblem.num_vehicles : ℤ) * (((3 : ℕ) : ℤ) - 1))
        ∧ (0 ≤ k.2.1
          ∧ k.2.1 < (witProblem.num_vehicles : ℤ) * (((3 : ℕ) : ℤ) - 1)))
    ∧ (∀ k ∈ (cvrp_objective_function witProblem.costs witProblem 1).keys,
        (0 ≤ k.1.1 ∧ k.1.1 < (witProblem.num_vehicles : ℤ) * (((3 : ℕ) : ℤ) - 1))
        ∧ (0 ≤ k.2.1
          ∧ k.2.1 < (witProblem.num_vehicles : ℤ) * (((3 : ℕ) : ℤ) - 1)))
    ∧ (∀ k ∈ (constraints witProblem 1).keys,
        (0 ≤ k.1.1
          ∧ k.1.1 < ((witProblem.num_vehicles * witProblem.max_deliveries : ℕ) : ℤ))
        ∧ (0 ≤ k.2.1
          ∧ k.2.1 < ((witProblem.num_vehicles * witProblem.max_deliveries : ℕ) : ℤ))) :=
  claim_C1_amended witProblem.costs witProblem 1 1 3 (by decide) (by decide)

end QuantumCVRP
